import Mathlib

/-!
MapReduce coordinator and worker (6.5840 lab 1): a shallow embedding

The definitions below follow `src/mr/coordinator.go`, `src/mr/rpc.go`,
`src/mr/worker.go` and, in the namespace `KVSrv`, `src/kvsrv/common.go` and
`src/kvsrv/server.go`.

Modelling conventions.

* Go `int` task ids and counts are `Int`; no arithmetic is done on them.
* `time.Time` is an `Int` count of nanoseconds on the monotonic clock and
  `time.Duration` is an `Int` count of nanoseconds; `Time.Sub` saturates at the
  ends of the signed 64-bit range as the Go library does.
* A handler runs under the coordinator mutex; every `time.Now()` read by one
  handler call is the single instant `now` passed to the call.
* `map[int]Task` is an association list with one entry per key.  Go leaves the
  order of `range` over a map unspecified, so the functions that range over a
  map and whose result depends on the order take a schedule `ord` that fixes
  the order of the visit (`rangeOrder`); every schedule visits every entry
  exactly once (`rangeOrder_perm`) and every order is the visit of some
  schedule (`rangeOrder_complete`).
* A method that mutates its receiver returns the new receiver.
* The worker runs on a file system that maps a file name to the content of the
  file.  The library routines it calls are parameters with their contract:
  `sort.Sort` (a permutation, sorted by `ByKey.Less`), the JSON encoder and
  decoder (`enc`, `dec`; decoding what was encoded yields the records).  A
  fatal error or a panic ends the call with its message.
* In `KVSrv` a Go string is its sequence of bytes, and a call that panics
  returns no reply and leaves the server as it was.
-/

namespace MR

/-! ## rpc.go -/

/-- Go `type Cmd string`. -/
abbrev Cmd := String

def MAP : Cmd := "map"
def REDUCE : Cmd := "reduce"
def WAIT : Cmd := "wait"
def EXIT : Cmd := "exit"

structure GetTaskReply where
  Command : Cmd
  NReduce : Int
  NMap : Int
  TaskId : Int
  Filenames : List String
  deriving DecidableEq, Repr

/-- The zero value the RPC layer hands to the handler. -/
def GetTaskReply.zero : GetTaskReply :=
  { Command := "", NReduce := 0, NMap := 0, TaskId := 0, Filenames := [] }

structure SetTaskDoneArgs where
  Command : Cmd
  TaskId : Int
  deriving DecidableEq, Repr

/-! ## coordinator.go -/

structure Task where
  id : Int
  filenames : List String
  done : Bool
  assigned : Bool
  startedAt : Int
  deriving DecidableEq, Repr

/-- The zero value of `Task`, read from a map at a key that is absent. -/
def Task.zero : Task :=
  { id := 0, filenames := [], done := false, assigned := false, startedAt := 0 }

/-- A Go `map[int]Task`: entries `(key, value)`. -/
abbrev GoMap := List (Int × Task)

/-- The read `tasks[k]`: the value at `k`, the zero value when `k` is absent. -/
def mapGet : GoMap → Int → Task
  | [], _ => Task.zero
  | (k0, t) :: rest, k => if k0 = k then t else mapGet rest k

/-- The read `v, ok := tasks[k]` as an option. -/
def mapLookup : GoMap → Int → Option Task
  | [], _ => none
  | (k0, t) :: rest, k => if k0 = k then some t else mapLookup rest k

/-- The write `tasks[k] = t`: replaces the entry at `k`, or adds one. -/
def mapSet : GoMap → Int → Task → GoMap
  | [], k, t => [(k, t)]
  | (k0, t0) :: rest, k, t =>
    if k0 = k then (k, t) :: rest else (k0, t0) :: mapSet rest k t

/-- The keys of a map. -/
def mapKeys (m : GoMap) : List Int := m.map Prod.fst

/-- The order in which one `range` loop visits the entries of a map.  The
schedule `ord` picks, one after the other, which of the entries not yet visited
comes next (its position among them, modulo their number); when the schedule
is used up the entries left are visited in stored order. -/
def rangeOrder : GoMap → List Nat → List (Int × Task)
  | tasks, [] => tasks
  | [], _ :: _ => []
  | e :: rest, i :: ord =>
    match (e :: rest).get? (i % (rest.length + 1)) with
    | some x => x :: rangeOrder ((e :: rest).eraseIdx (i % (rest.length + 1))) ord
    | none => e :: rest

structure Coordinator where
  timeout : Int
  nReduce : Int
  nMap : Int
  mapTasks : GoMap
  reduceTasks : GoMap
  deriving DecidableEq, Repr

def maxDuration : Int := 2 ^ 63 - 1
def minDuration : Int := -(2 ^ 63)

/-- Go `time.Second`, in nanoseconds. -/
def Second : Int := 1000000000

/-- Go `t.Sub(u)`: the duration `t - u`, saturated to the range of `Duration`. -/
def timeSub (t u : Int) : Int :=
  if t - u > maxDuration then maxDuration
  else if t - u < minDuration then minDuration
  else t - u

/-- Go `hasTimedout(startedAt, timeout)` with `time.Now()` read as `now`. -/
def hasTimedout (startedAt timeout now : Int) : Bool :=
  let t := now
  let elapsed := timeSub t startedAt
  decide (elapsed > timeout)

/-- The loop of `getTaskToDo` over the entries still to visit. -/
def getTaskToDoFrom (tasks : GoMap) (timeout now : Int) :
    List (Int × Task) → GoMap × Option Task
  | [] => (tasks, none)
  | (_, task) :: rest =>
    if !task.done && (!task.assigned || hasTimedout task.startedAt timeout now) then
      let task1 : Task := { task with assigned := true, startedAt := now }
      (mapSet tasks task1.id task1, some task1)
    else getTaskToDoFrom tasks timeout now rest

/-- Go `getTaskToDo(tasks, timeout)`: returns the updated map and the task, or
`none` for the nil pointer. -/
def getTaskToDo (tasks : GoMap) (timeout now : Int) (ord : List Nat) :
    GoMap × Option Task :=
  getTaskToDoFrom tasks timeout now (rangeOrder tasks ord)

/-- The loop of `areTasksDone` over the entries still to visit. -/
def areTasksDoneFrom : List (Int × Task) → Bool
  | [] => true
  | (_, task) :: rest => if !task.done then false else areTasksDoneFrom rest

/-- Go `areTasksDone(tasks)`; the result does not depend on the order of the
visit (`areTasksDoneFrom_rangeOrder`). -/
def areTasksDone (tasks : GoMap) : Bool := areTasksDoneFrom tasks

/-- Go `c.getNextTask()`: `ordM` and `ordR` are the schedules of the two `range`
loops over the Map and the Reduce table. -/
def getNextTask (c : Coordinator) (now : Int) (ordM ordR : List Nat) :
    Coordinator × Cmd × Option Task :=
  match getTaskToDo c.mapTasks c.timeout now ordM with
  | (mapTasks1, some mapTask) => ({ c with mapTasks := mapTasks1 }, MAP, some mapTask)
  | (mapTasks1, none) =>
    let c1 : Coordinator := { c with mapTasks := mapTasks1 }
    if !areTasksDone c1.mapTasks then (c1, WAIT, none)
    else
      match getTaskToDo c1.reduceTasks c1.timeout now ordR with
      | (reduceTasks1, some reduceTask) =>
        ({ c1 with reduceTasks := reduceTasks1 }, REDUCE, some reduceTask)
      | (reduceTasks1, none) =>
        let c2 : Coordinator := { c1 with reduceTasks := reduceTasks1 }
        if !areTasksDone c2.reduceTasks then (c2, WAIT, none)
        else (c2, EXIT, none)

/-- Go `c.GetTask(args, reply)`: the coordinator after the call and the reply.
The error returned is always nil. -/
def GetTask (c : Coordinator) (now : Int) (ordM ordR : List Nat) :
    Coordinator × GetTaskReply :=
  match getNextTask c now ordM ordR with
  | (c1, cmd, task) =>
    let reply : GetTaskReply := { GetTaskReply.zero with Command := cmd }
    let task0 : Task := task.getD Task.zero
    if cmd = MAP then
      (c1, { reply with TaskId := task0.id, Filenames := task0.filenames,
                        NReduce := c1.nReduce })
    else if cmd = REDUCE then
      (c1, { reply with TaskId := task0.id, NMap := c1.nMap })
    else (c1, reply)

/-- Go `c.SetTaskDone(args, reply)`: the coordinator after the call and the
error (`none` for nil). -/
def SetTaskDone (c : Coordinator) (args : SetTaskDoneArgs) :
    Coordinator × Option String :=
  if args.Command = MAP then
    let t := mapGet c.mapTasks args.TaskId
    let t1 : Task := { t with done := true }
    ({ c with mapTasks := mapSet c.mapTasks args.TaskId t1 }, none)
  else if args.Command = REDUCE then
    let t := mapGet c.reduceTasks args.TaskId
    let t1 : Task := { t with done := true }
    ({ c with reduceTasks := mapSet c.reduceTasks args.TaskId t1 }, none)
  else (c, some "unknown command")

/-- Go `c.Done()`. -/
def Done (c : Coordinator) : Bool :=
  areTasksDone c.mapTasks && areTasksDone c.reduceTasks

/-- The first loop of `MakeCoordinator`, over the files not yet seen; `i` is
the index of the next file. -/
def initMapTasks (tasks : GoMap) (i : Nat) : List String → GoMap
  | [] => tasks
  | filename :: rest =>
    let t : Task :=
      { id := i, filenames := [filename], done := false, assigned := false,
        startedAt := 0 }
    initMapTasks (mapSet tasks i t) (i + 1) rest

/-- The second loop of `MakeCoordinator`: `n` iterations starting at `i`. -/
def initReduceTasks (tasks : GoMap) (i : Nat) : Nat → GoMap
  | 0 => tasks
  | n + 1 =>
    let t : Task :=
      { id := i, filenames := [], done := false, assigned := false, startedAt := 0 }
    initReduceTasks (mapSet tasks i t) (i + 1) n

/-- Go `MakeCoordinator(files, nReduce)`, without the start of the RPC server. -/
def MakeCoordinator (files : List String) (nReduce : Int) : Coordinator :=
  { timeout := 10 * Second
    nReduce := nReduce
    nMap := files.length
    mapTasks := initMapTasks [] 0 files
    reduceTasks := initReduceTasks [] 0 nReduce.toNat }

/-- One call on the coordinator. -/
inductive Op where
  | getTask (now : Int) (ordM ordR : List Nat)
  | setTaskDone (args : SetTaskDoneArgs)
  | done
  deriving DecidableEq, Repr

/-- The coordinator after one call. -/
def step (c : Coordinator) : Op → Coordinator
  | Op.getTask now ordM ordR => (GetTask c now ordM ordR).1
  | Op.setTaskDone args => (SetTaskDone c args).1
  | Op.done => c

/-- The coordinator after a sequence of calls. -/
def run (c : Coordinator) (ops : List Op) : Coordinator := ops.foldl step c

/-! ## worker.go -/

structure KeyValue where
  Key : String
  Value : String
  deriving DecidableEq, Repr

/-- Go `ByKey.Less` on two records: `a.Key < b.Key`.  Go compares strings byte by
byte; on the UTF-8 strings that the JSON decoder yields this is the
lexicographic order of the code points. -/
def Less (a b : KeyValue) : Bool := decide (a.Key.data < b.Key.data)

/-- One round of the output loop of `doReduceTask`: the key and the values
passed to `reducef`, and the line written to the output file. -/
structure ReduceCall where
  key : String
  values : List String
  line : String
  deriving DecidableEq, Repr

/-- The output loop of `doReduceTask` (lines 140 to 156) over the records from
index `i` on: `kv` is `intermediate[i]`, the records taken while the key is the
same are `intermediate[i+1 .. j)`, and the next round starts at `j`.  Every
round advances `i`, so the length of the slice bounds the number of rounds. -/
def reduceLoop (reducef : String → List String → String) :
    Nat → List KeyValue → List ReduceCall
  | 0, _ => []
  | _ + 1, [] => []
  | fuel + 1, kv :: rest =>
    let values := kv.Value :: (rest.takeWhile fun x => x.Key == kv.Key).map fun x => x.Value
    let output := reducef kv.Key values
    { key := kv.Key, values := values, line := kv.Key ++ " " ++ output ++ "\n" } ::
      reduceLoop reducef fuel (rest.dropWhile fun x => x.Key == kv.Key)

/-- Go `doReduceTask` from the sort on (lines 134 to 156), given the records read
from the intermediate files.  `sortByKey` is `sort.Sort(ByKey(...))`, a
library routine that is not stable. -/
def doReduceTaskFrom (sortByKey : List KeyValue → List KeyValue)
    (reducef : String → List String → String) (intermediate : List KeyValue) :
    List ReduceCall :=
  let sorted := sortByKey intermediate
  reduceLoop reducef sorted.length sorted

/-- The values of the records of `l` with key `k`, in the order of `l`. -/
def valuesOf (k : String) (l : List KeyValue) : List String :=
  (l.filter fun kv => kv.Key = k).map fun kv => kv.Value

/-- Insertion of a record into a list sorted by key. -/
def insertByKey (kv : KeyValue) : List KeyValue → List KeyValue
  | [] => [kv]
  | x :: rest => if Less kv x then kv :: x :: rest else x :: insertByKey kv rest

/-- An insertion sort by key: one routine that meets the contract of `sort.Sort`. -/
def insertionSortByKey : List KeyValue → List KeyValue
  | [] => []
  | kv :: rest => insertByKey kv (insertionSortByKey rest)

/-- The bytes of one character in UTF-8, the encoding of a Go string. -/
def utf8Bytes (c : Char) : List Nat :=
  let v := c.toNat
  if v ≤ 0x7f then [v]
  else if v ≤ 0x7ff then [0xc0 + v / 64, 0x80 + v % 64]
  else if v ≤ 0xffff then [0xe0 + v / 4096, 0x80 + v / 64 % 64, 0x80 + v % 64]
  else [0xf0 + v / 262144, 0x80 + v / 4096 % 64, 0x80 + v / 64 % 64, 0x80 + v % 64]

/-- Go `[]byte(key)`. -/
def stringBytes (key : String) : List Nat := key.data.flatMap utf8Bytes

/-- Go `fnv.New32a()` followed by `Write(bytes)` and `Sum32()`: the 32-bit
FNV-1a hash, `hash ^= byte; hash *= 16777619` in `uint32` from the offset
basis 2166136261. -/
def fnv32a (bytes : List Nat) : Nat :=
  bytes.foldl (fun h b => (h ^^^ b) * 16777619 % 2 ^ 32) 2166136261

/-- Go `ihash(key)`: `int(h.Sum32() & 0x7fffffff)`. -/
def ihash (key : String) : Int := ((fnv32a (stringBytes key) &&& 0x7fffffff : Nat) : Int)

/-- A file system: the content of every file that exists, by name. -/
abbrev FS := List (String × String)

/-- The content of the file `name`, `none` when `os.Open(name)` fails. -/
def fsRead : FS → String → Option String
  | [], _ => none
  | (n, content) :: rest, name => if n = name then some content else fsRead rest name

/-- The file system after `name` is created or truncated and `content` is
written to it. -/
def fsWrite : FS → String → String → FS
  | [], name, content => [(name, content)]
  | (n, c) :: rest, name, content =>
    if n = name then (name, content) :: rest else (n, c) :: fsWrite rest name content

/-- Go `fmt.Sprintf("mr-%v-%v", m, r)`. -/
def intermediateName (m r : Int) : String :=
  "mr-" ++ toString m ++ "-" ++ toString r

/-- Go `fmt.Sprintf("mr-out-%v", taskId)`. -/
def outputName (taskId : Int) : String := "mr-out-" ++ toString taskId

/-- The bytes a `json.Encoder` has written after `Encode` was called on the
records of `l` in order; `enc kv` is the text of one `Encode(&kv)`. -/
def encodeAll (enc : KeyValue → String) (l : List KeyValue) : String :=
  l.foldl (fun content kv => content ++ enc kv) ""

/-- The first loop of `doMapTask` (lines 77 to 89) over the file names still to
read. -/
def readInputs (mapf : String → String → List KeyValue) (fs : FS) :
    List KeyValue → List String → Except String (List KeyValue)
  | intermediate, [] => Except.ok intermediate
  | intermediate, filename :: rest =>
    match fsRead fs filename with
    | none => Except.error ("cannot open " ++ filename)
    | some content => readInputs mapf fs (intermediate ++ mapf filename content) rest

/-- The update `split[idx] = append(split[idx], kv)`. -/
def appendAt : List (List KeyValue) → Nat → KeyValue → List (List KeyValue)
  | [], _, _ => []
  | b :: bs, 0, kv => (b ++ [kv]) :: bs
  | b :: bs, idx + 1, kv => b :: appendAt bs idx kv

/-- The partition loop of `doMapTask` (lines 96 to 99) over the records still
to place.  The remainder `%` of Go truncates towards zero and panics on a zero
divisor; an index outside the slice panics. -/
def partitionLoop (nreduce : Int) :
    List (List KeyValue) → List KeyValue → Except String (List (List KeyValue))
  | split, [] => Except.ok split
  | split, kv :: rest =>
    if nreduce = 0 then Except.error "integer divide by zero"
    else
      let idx := (ihash kv.Key).tmod nreduce
      if 0 ≤ idx ∧ idx.toNat < split.length then
        partitionLoop nreduce (appendAt split idx.toNat kv) rest
      else Except.error "index out of range"

/-- The partition step of `doMapTask` (lines 95 to 99); `make` panics on a
negative length. -/
def partition (nreduce : Int) (intermediate : List KeyValue) :
    Except String (List (List KeyValue)) :=
  if nreduce < 0 then Except.error "makeslice: len out of range"
  else partitionLoop nreduce (List.replicate nreduce.toNat []) intermediate

/-- The write loop of `doMapTask` (lines 101 to 112) from index `i` on, over
the buckets `splitIntermediate[i ..]`: every round creates the file of the
bucket and encodes the records of the bucket into it. -/
def writeBuckets (enc : KeyValue → String) (taskId : Int) :
    Nat → List (List KeyValue) → FS → FS
  | _, [], fs => fs
  | i, bucket :: rest, fs =>
    writeBuckets enc taskId (i + 1) rest
      (fsWrite fs (intermediateName taskId i) (encodeAll enc bucket))

/-- Go `doMapTask(mapf, taskId, filenames, nreduce)` on the file system `fs`:
the file system after the call, or the message of the fatal error or panic
that ends the worker (no file has been written by then). -/
def doMapTask (enc : KeyValue → String) (mapf : String → String → List KeyValue)
    (taskId : Int) (filenames : List String) (nreduce : Int) (fs : FS) :
    Except String FS :=
  match readInputs mapf fs [] filenames with
  | Except.error e => Except.error e
  | Except.ok intermediate =>
    match partition nreduce intermediate with
    | Except.error e => Except.error e
    | Except.ok splitIntermediate =>
      Except.ok (writeBuckets enc taskId 0 splitIntermediate fs)

/-- The read loop of `doReduceTask` (lines 117 to 132): `n` rounds from index
`i` on.  `dec content` is the list of records a `json.Decoder` yields from
`content` before its first error. -/
def readIntermediate (dec : String → List KeyValue) (taskId : Int) (fs : FS) :
    List KeyValue → Nat → Nat → Except String (List KeyValue)
  | intermediate, _, 0 => Except.ok intermediate
  | intermediate, i, n + 1 =>
    match fsRead fs (intermediateName i taskId) with
    | none => Except.error ("cannot open " ++ intermediateName i taskId)
    | some content => readIntermediate dec taskId fs (intermediate ++ dec content) (i + 1) n

/-- Go `doReduceTask(reducef, taskId, nmap)` on the file system `fs`: the file
system after the call, or the message of the fatal error that ends the worker
(the output file has not been created by then). -/
def doReduceTask (dec : String → List KeyValue)
    (sortByKey : List KeyValue → List KeyValue)
    (reducef : String → List String → String) (taskId : Int) (nmap : Int) (fs : FS) :
    Except String FS :=
  match readIntermediate dec taskId fs [] 0 nmap.toNat with
  | Except.error e => Except.error e
  | Except.ok intermediate =>
    Except.ok (fsWrite fs (outputName taskId)
      (((doReduceTaskFrom sortByKey reducef intermediate).map ReduceCall.line).foldl
        (fun content line => content ++ line) ""))

/-- The words of a text: the maximal runs of characters other than the space. -/
def wordsOf : List Char → List Char → List String
  | [], [] => []
  | word, [] => [word.asString]
  | word, c :: rest =>
    if c = ' ' then
      (if word = [] then wordsOf [] rest else word.asString :: wordsOf [] rest)
    else wordsOf (word ++ [c]) rest

/-- Modelled from the spec: the word-count map function of the end-to-end
scenario, which emits the record (word, "1") for every word of the content. -/
def wcMap (_filename content : String) : List KeyValue :=
  (wordsOf [] content.data).map fun w => { Key := w, Value := "1" }

/-- Modelled from the spec: the word-count reduce function of the end-to-end
scenario, the number of values in decimal. -/
def wcReduce (_key : String) (values : List String) : String :=
  toString values.length

/-- One codec that round-trips every list of records: every character of the
key follows a `k`, every character of the value follows a `v`, and a newline
ends the record. -/
def tagEncode (kv : KeyValue) : String :=
  ((kv.Key.data.flatMap fun c => ['k', c]) ++ (kv.Value.data.flatMap fun c => ['v', c]) ++
    ['\n']).asString

/-- The decoder of the tagged codec, with the key and the value read so far. -/
def tagDecodeFrom : List Char → List Char → List Char → List KeyValue
  | _, _, [] => []
  | key, value, [t] =>
    if t = '\n' then [{ Key := key.asString, Value := value.asString }] else []
  | key, value, t :: c :: rest =>
    if t = '\n' then
      { Key := key.asString, Value := value.asString } :: tagDecodeFrom [] [] (c :: rest)
    else if t = 'k' then tagDecodeFrom (key ++ [c]) value rest
    else if t = 'v' then tagDecodeFrom key (value ++ [c]) rest
    else []

def tagDecode (content : String) : List KeyValue := tagDecodeFrom [] [] content.data

/-! ## Vocabulary of the statements -/

/-- The test of `getTaskToDo`: not done, and unassigned or timed out. -/
def eligible (timeout now : Int) (task : Task) : Bool :=
  !task.done && (!task.assigned || hasTimedout task.startedAt timeout now)

/-- The task as `getTaskToDo` stamps it when handing it out at `now`. -/
def stamped (now : Int) (task : Task) : Task :=
  { task with assigned := true, startedAt := now }

/-- The reply that carries only a command. -/
def bareReply (cmd : Cmd) : GetTaskReply :=
  { GetTaskReply.zero with Command := cmd }

/-- A table is well keyed when it has one entry per key and every task that
is not done is stored under the key equal to its id. -/
def WellKeyed (m : GoMap) : Prop :=
  (mapKeys m).Nodup ∧ ∀ e ∈ m, e.2.done = false → e.1 = e.2.id

/-- Every task that is done in `m` is still there and done in `m1`. -/
def DoneKept (m m1 : GoMap) : Prop :=
  ∀ k t, mapLookup m k = some t → t.done = true →
    ∃ t1, mapLookup m1 k = some t1 ∧ t1.done = true

/-- The coordinator reached from `MakeCoordinator(files, nReduce)` by the calls `ops`. -/
def reached (files : List String) (nReduce : Int) (ops : List Op) : Coordinator :=
  run (MakeCoordinator files nReduce) ops

/-- The input files of the end-to-end scenario. -/
def wcInputs : FS := [("a.txt", "x y x"), ("b.txt", "y z")]

/-- The task under key `k`, while it is not done, is assigned and was last
handed out at a time not before `T`. -/
def HandedSince (T k : Int) (m : GoMap) : Prop :=
  ∀ task, mapLookup m k = some task → task.done = false →
    task.assigned = true ∧ T ≤ task.startedAt

end MR

/-! ## kvsrv: common.go and server.go

A Go string is a sequence of bytes; `len` and the slice `s[:n]` count bytes.
A map that is only read and written at given keys is the function from the key
to the value read there. -/

namespace KVSrv

/-- A Go `string`: its bytes. -/
abbrev GoString := List UInt8

structure PutAppendArgs where
  Key : GoString
  Value : GoString
  Id : Int
  deriving DecidableEq, Repr

structure GetArgs where
  Key : GoString
  deriving DecidableEq, Repr

/-- The server state: `store[k]` reads as the empty string at an absent key;
`history[id]` is `none` at an absent id. -/
structure KVServer where
  store : GoString → GoString
  history : Int → Option Int

/-- Go `StartKVServer()`. -/
def StartKVServer : KVServer :=
  { store := fun _ => [], history := fun _ => none }

/-- Go `kv.Get(args, reply)`: the server after the call and `reply.Value`. -/
def Get (kv : KVServer) (args : GetArgs) : KVServer × GoString :=
  (kv, kv.store args.Key)

/-- Go `kv.Put(args, reply)`: the server after the call and `reply.Value`. -/
def Put (kv : KVServer) (args : PutAppendArgs) : KVServer × GoString :=
  ({ kv with store := fun k => if k = args.Key then args.Value else kv.store k },
    args.Value)

/-- Go `s[:n]`: `none` when the slice bounds are out of range and the
expression panics. -/
def sliceTo (s : GoString) (n : Int) : Option GoString :=
  if 0 ≤ n ∧ n ≤ (s.length : Int) then some (s.take n.toNat) else none

/-- Go `kv.Append(args, reply)`: the server after the call and `reply.Value`,
or `none` when the call panics (the deferred unlock runs and nothing has been
written). -/
def Append (kv : KVServer) (args : PutAppendArgs) : KVServer × Option GoString :=
  match kv.history args.Id with
  | some prevValueLength => (kv, sliceTo (kv.store args.Key) prevValueLength)
  | none =>
    let value := kv.store args.Key
    ({ store := fun k => if k = args.Key then value ++ args.Value else kv.store k
       history := fun id => if id = args.Id then some (value.length : Int)
                            else kv.history id },
      some value)

/-- One call on the server. -/
inductive Call where
  | get (args : GetArgs)
  | put (args : PutAppendArgs)
  | append (args : PutAppendArgs)
  deriving DecidableEq, Repr

/-- The server after one call. -/
def serve (kv : KVServer) : Call → KVServer
  | Call.get args => (Get kv args).1
  | Call.put args => (Put kv args).1
  | Call.append args => (Append kv args).1

/-- The server after a sequence of calls. -/
def serveAll (kv : KVServer) (ops : List Call) : KVServer := ops.foldl serve kv

/-- The value `v` was returned for the Id `I` with the key `K`: the history
holds its length and `store[K]` starts with it. -/
def Replied (I : Int) (K v : GoString) (s : KVServer) : Prop :=
  s.history I = some (v.length : Int) ∧ ∃ suffix, s.store K = v ++ suffix

end KVSrv

namespace MR

/-! ## Lemmas and theorems: the coordinator -/

theorem perm_cons_eraseIdx {α : Type} (l : List α) (j : Nat) (x : α)
    (h : l.get? j = some x) : l.Perm (x :: l.eraseIdx j) := by
  induction l generalizing j with
  | nil => simp at h
  | cons y ys ih =>
    cases j with
    | zero =>
      simp only [List.get?_cons_zero, Option.some.injEq] at h
      subst h
      exact List.Perm.refl _
    | succ j =>
      simp only [List.get?_cons_succ] at h
      exact (List.Perm.cons y (ih j h)).trans (List.Perm.swap x y _)

/-- Every schedule visits every entry exactly once. -/
theorem rangeOrder_perm (ord : List Nat) :
    ∀ tasks : GoMap, (rangeOrder tasks ord).Perm tasks := by
  induction ord with
  | nil => intro tasks; cases tasks <;> exact List.Perm.refl _
  | cons i ord ih =>
    intro tasks
    cases tasks with
    | nil => exact List.Perm.refl _
    | cons e rest =>
      unfold rangeOrder
      cases hg : (e :: rest).get? (i % (rest.length + 1)) with
      | none => exact List.Perm.refl _
      | some x =>
        exact (List.Perm.cons x (ih _)).trans (perm_cons_eraseIdx _ _ x hg).symm

/-- Every order of the entries is the visit of some schedule. -/
theorem rangeOrder_complete (p : List (Int × Task)) :
    ∀ tasks : GoMap, p.Perm tasks → ∃ ord, rangeOrder tasks ord = p := by
  induction p with
  | nil =>
    intro tasks h
    exact ⟨[], by rw [h.symm.eq_nil]; rfl⟩
  | cons x p ih =>
    intro tasks h
    have hx : x ∈ tasks := h.subset (List.mem_cons_self _ _)
    obtain ⟨j, hj⟩ := List.mem_iff_get?.1 hx
    have hperm := perm_cons_eraseIdx tasks j x hj
    obtain ⟨ord, hord⟩ := ih (tasks.eraseIdx j) ((h.trans hperm).cons_inv)
    refine ⟨j :: ord, ?_⟩
    cases tasks with
    | nil => cases hx
    | cons e rest =>
      have hlt : j < rest.length + 1 := by
        by_contra hge
        rw [List.get?_eq_none.2 (by simpa using Nat.le_of_not_lt hge)] at hj
        cases hj
      unfold rangeOrder
      rw [Nat.mod_eq_of_lt hlt, hj]
      simp only
      rw [hord]

theorem mem_rangeOrder (tasks : GoMap) (ord : List Nat) (e : Int × Task) :
    e ∈ rangeOrder tasks ord ↔ e ∈ tasks :=
  (rangeOrder_perm ord tasks).mem_iff

theorem areTasksDoneFrom_iff (l : List (Int × Task)) :
    areTasksDoneFrom l = true ↔ ∀ e ∈ l, e.2.done = true := by
  induction l with
  | nil => simp [areTasksDoneFrom]
  | cons e rest ih =>
    obtain ⟨k, task⟩ := e
    cases hd : task.done <;> simp [areTasksDoneFrom, hd, ih]

theorem areTasksDone_iff (tasks : GoMap) :
    areTasksDone tasks = true ↔ ∀ e ∈ tasks, e.2.done = true :=
  areTasksDoneFrom_iff tasks

/-- The result of `areTasksDone` is the same in every order of the visit. -/
theorem areTasksDoneFrom_rangeOrder (tasks : GoMap) (ord : List Nat) :
    areTasksDoneFrom (rangeOrder tasks ord) = areTasksDone tasks := by
  rw [Bool.eq_iff_iff, areTasksDoneFrom_iff, areTasksDone_iff]
  constructor
  · intro h e he
    exact h e ((mem_rangeOrder tasks ord e).2 he)
  · intro h e he
    exact h e ((mem_rangeOrder tasks ord e).1 he)

theorem getTaskToDoFrom_none (tasks : GoMap) (timeout now : Int) (l : List (Int × Task))
    (h : ∀ e ∈ l, eligible timeout now e.2 = false) :
    getTaskToDoFrom tasks timeout now l = (tasks, none) := by
  induction l with
  | nil => rfl
  | cons e rest ih =>
    obtain ⟨k, task⟩ := e
    have h1 : eligible timeout now task = false := h (k, task) (List.mem_cons_self _ _)
    unfold eligible at h1
    unfold getTaskToDoFrom
    rw [if_neg (by simp [h1])]
    exact ih fun e he => h e (List.mem_cons_of_mem _ he)

theorem getTaskToDoFrom_some (tasks : GoMap) (timeout now : Int) (l : List (Int × Task))
    (h : ∃ e ∈ l, eligible timeout now e.2 = true) :
    ∃ e ∈ l, eligible timeout now e.2 = true ∧
      getTaskToDoFrom tasks timeout now l =
        (mapSet tasks e.2.id (stamped now e.2), some (stamped now e.2)) := by
  induction l with
  | nil =>
    obtain ⟨e, he, _⟩ := h
    cases he
  | cons e rest ih =>
    obtain ⟨k, task⟩ := e
    by_cases h1 : eligible timeout now task = true
    · refine ⟨(k, task), List.mem_cons_self _ _, h1, ?_⟩
      unfold eligible at h1
      unfold getTaskToDoFrom
      rw [if_pos h1]
      rfl
    · have hrest : ∃ e ∈ rest, eligible timeout now e.2 = true := by
        obtain ⟨e, he, hel⟩ := h
        rcases List.mem_cons.1 he with rfl | he
        · exact absurd hel h1
        · exact ⟨e, he, hel⟩
      obtain ⟨e, he, hel, heq⟩ := ih hrest
      refine ⟨e, List.mem_cons_of_mem _ he, hel, ?_⟩
      unfold eligible at h1
      unfold getTaskToDoFrom
      rw [if_neg h1]
      exact heq

theorem getTaskToDo_none (tasks : GoMap) (timeout now : Int) (ord : List Nat)
    (h : ∀ e ∈ tasks, eligible timeout now e.2 = false) :
    getTaskToDo tasks timeout now ord = (tasks, none) :=
  getTaskToDoFrom_none tasks timeout now _ fun e he =>
    h e ((mem_rangeOrder tasks ord e).1 he)

theorem getTaskToDo_some (tasks : GoMap) (timeout now : Int) (ord : List Nat)
    (h : ∃ e ∈ tasks, eligible timeout now e.2 = true) :
    ∃ e ∈ tasks, eligible timeout now e.2 = true ∧
      getTaskToDo tasks timeout now ord =
        (mapSet tasks e.2.id (stamped now e.2), some (stamped now e.2)) := by
  have h1 : ∃ e ∈ rangeOrder tasks ord, eligible timeout now e.2 = true := by
    obtain ⟨e, he, hel⟩ := h
    exact ⟨e, (mem_rangeOrder tasks ord e).2 he, hel⟩
  obtain ⟨e, he, hel, heq⟩ := getTaskToDoFrom_some tasks timeout now _ h1
  exact ⟨e, (mem_rangeOrder tasks ord e).1 he, hel, heq⟩

/-- The two outcomes of `getTaskToDo`. -/
theorem getTaskToDo_cases (tasks : GoMap) (timeout now : Int) (ord : List Nat) :
    ((∀ e ∈ tasks, eligible timeout now e.2 = false) ∧
        getTaskToDo tasks timeout now ord = (tasks, none)) ∨
      ∃ e ∈ tasks, eligible timeout now e.2 = true ∧
        getTaskToDo tasks timeout now ord =
          (mapSet tasks e.2.id (stamped now e.2), some (stamped now e.2)) := by
  by_cases h : ∃ e ∈ tasks, eligible timeout now e.2 = true
  · exact Or.inr (getTaskToDo_some tasks timeout now ord h)
  · refine Or.inl ⟨?_, getTaskToDo_none tasks timeout now ord ?_⟩ <;>
    · intro e he
      cases hel : eligible timeout now e.2
      · rfl
      · exact absurd ⟨e, he, hel⟩ h

theorem not_areTasksDone_iff (tasks : GoMap) :
    areTasksDone tasks = false ↔ ∃ e ∈ tasks, e.2.done = false := by
  rw [← Bool.not_eq_true, areTasksDone_iff]
  simp

/-- The five outcomes of `GetTask`, each with the state and the reply. -/
theorem GetTask_cases (c : Coordinator) (now : Int) (ordM ordR : List Nat) :
    (∃ e ∈ c.mapTasks, eligible c.timeout now e.2 = true ∧
        GetTask c now ordM ordR =
          ({ c with mapTasks := mapSet c.mapTasks e.2.id (stamped now e.2) },
           { Command := MAP, NReduce := c.nReduce, NMap := 0, TaskId := e.2.id,
             Filenames := e.2.filenames })) ∨
    ((∀ e ∈ c.mapTasks, eligible c.timeout now e.2 = false) ∧
        (∃ e ∈ c.mapTasks, e.2.done = false) ∧
        GetTask c now ordM ordR = (c, bareReply WAIT)) ∨
    ((∀ e ∈ c.mapTasks, e.2.done = true) ∧
        ∃ e ∈ c.reduceTasks, eligible c.timeout now e.2 = true ∧
          GetTask c now ordM ordR =
            ({ c with reduceTasks := mapSet c.reduceTasks e.2.id (stamped now e.2) },
             { Command := REDUCE, NReduce := 0, NMap := c.nMap, TaskId := e.2.id,
               Filenames := [] })) ∨
    ((∀ e ∈ c.mapTasks, e.2.done = true) ∧
        (∀ e ∈ c.reduceTasks, eligible c.timeout now e.2 = false) ∧
        (∃ e ∈ c.reduceTasks, e.2.done = false) ∧
        GetTask c now ordM ordR = (c, bareReply WAIT)) ∨
    ((∀ e ∈ c.mapTasks, e.2.done = true) ∧ (∀ e ∈ c.reduceTasks, e.2.done = true) ∧
        GetTask c now ordM ordR = (c, bareReply EXIT)) := by
  rcases getTaskToDo_cases c.mapTasks c.timeout now ordM with ⟨hno, hM⟩ | ⟨e, he, hel, hM⟩
  · cases hdM : areTasksDone c.mapTasks
    · refine Or.inr (Or.inl ⟨hno, (not_areTasksDone_iff _).1 hdM, ?_⟩)
      simp [GetTask, getNextTask, hM, hdM, bareReply, MAP, REDUCE, WAIT]
    · have hallM := (areTasksDone_iff _).1 hdM
      rcases getTaskToDo_cases c.reduceTasks c.timeout now ordR with
        ⟨hnoR, hR⟩ | ⟨e, he, hel, hR⟩
      · cases hdR : areTasksDone c.reduceTasks
        · refine Or.inr (Or.inr (Or.inr (Or.inl
            ⟨hallM, hnoR, (not_areTasksDone_iff _).1 hdR, ?_⟩)))
          simp [GetTask, getNextTask, hM, hdM, hR, hdR, bareReply, MAP, REDUCE, WAIT]
        · refine Or.inr (Or.inr (Or.inr (Or.inr
            ⟨hallM, (areTasksDone_iff _).1 hdR, ?_⟩)))
          simp [GetTask, getNextTask, hM, hdM, hR, hdR, bareReply, MAP, REDUCE, EXIT]
      · refine Or.inr (Or.inr (Or.inl ⟨hallM, e, he, hel, ?_⟩))
        simp [GetTask, getNextTask, hM, hdM, hR, stamped, GetTaskReply.zero, MAP, REDUCE]
  · refine Or.inl ⟨e, he, hel, ?_⟩
    simp [GetTask, getNextTask, hM, stamped, GetTaskReply.zero, MAP]

theorem mapLookup_mapSet (m : GoMap) (k : Int) (t : Task) (k1 : Int) :
    mapLookup (mapSet m k t) k1 = if k = k1 then some t else mapLookup m k1 := by
  induction m with
  | nil => simp [mapSet, mapLookup]
  | cons e rest ih =>
    obtain ⟨k0, t0⟩ := e
    by_cases h0 : k0 = k
    · subst h0
      by_cases h1 : k0 = k1 <;> simp [mapSet, mapLookup, h1]
    · by_cases h1 : k0 = k1
      · subst h1
        have : ¬ k = k0 := fun h => h0 h.symm
        simp [mapSet, mapLookup, h0, this]
      · simp [mapSet, mapLookup, h0, h1, ih]

theorem mapGet_eq (m : GoMap) (k : Int) :
    mapGet m k = (mapLookup m k).getD Task.zero := by
  induction m with
  | nil => rfl
  | cons e rest ih =>
    obtain ⟨k0, t0⟩ := e
    by_cases h0 : k0 = k <;> simp [mapGet, mapLookup, h0, ih]

theorem mem_mapSet (m : GoMap) (k : Int) (t : Task) (e : Int × Task)
    (h : e ∈ mapSet m k t) : e = (k, t) ∨ e ∈ m := by
  induction m with
  | nil => simpa [mapSet] using h
  | cons e0 rest ih =>
    obtain ⟨k0, t0⟩ := e0
    by_cases h0 : k0 = k
    · simp only [mapSet, h0, if_true, List.mem_cons] at h
      rcases h with h | h
      · exact Or.inl h
      · exact Or.inr (List.mem_cons_of_mem _ h)
    · simp only [mapSet, h0, if_false, List.mem_cons] at h
      rcases h with h | h
      · exact Or.inr (h ▸ List.mem_cons_self _ _)
      · rcases ih h with h | h
        · exact Or.inl h
        · exact Or.inr (List.mem_cons_of_mem _ h)

theorem mapKeys_mapSet_of_mem (m : GoMap) (k : Int) (t : Task) (h : k ∈ mapKeys m) :
    mapKeys (mapSet m k t) = mapKeys m := by
  induction m with
  | nil => simp [mapKeys] at h
  | cons e0 rest ih =>
    obtain ⟨k0, t0⟩ := e0
    by_cases h0 : k0 = k
    · simp [mapSet, mapKeys, h0]
    · have hr : k ∈ mapKeys rest := by
        simp only [mapKeys, List.map_cons, List.mem_cons] at h
        rcases h with h | h
        · exact absurd h.symm h0
        · exact h
      have := ih hr
      simp only [mapKeys] at this
      simp [mapSet, mapKeys, h0, this]

theorem mapSet_of_not_mem (m : GoMap) (k : Int) (t : Task) (h : k ∉ mapKeys m) :
    mapSet m k t = m ++ [(k, t)] := by
  induction m with
  | nil => rfl
  | cons e0 rest ih =>
    obtain ⟨k0, t0⟩ := e0
    simp only [mapKeys, List.map_cons, List.mem_cons, not_or] at h
    have h0 : ¬ k0 = k := fun hk => h.1 hk.symm
    simp [mapSet, h0, ih h.2]

theorem nodup_mapSet (m : GoMap) (k : Int) (t : Task) (h : (mapKeys m).Nodup) :
    (mapKeys (mapSet m k t)).Nodup := by
  by_cases hk : k ∈ mapKeys m
  · rw [mapKeys_mapSet_of_mem m k t hk]
    exact h
  · rw [mapSet_of_not_mem m k t hk]
    simp only [mapKeys, List.map_append, List.map_cons, List.map_nil]
    refine List.Nodup.append h (List.nodup_singleton k) ?_
    intro a ha ha1
    simp only [List.mem_singleton] at ha1
    exact hk (ha1 ▸ ha)

theorem mapLookup_of_mem (m : GoMap) (h : (mapKeys m).Nodup) (e : Int × Task)
    (he : e ∈ m) : mapLookup m e.1 = some e.2 := by
  induction m with
  | nil => cases he
  | cons e0 rest ih =>
    obtain ⟨k0, t0⟩ := e0
    simp only [mapKeys, List.map_cons, List.nodup_cons] at h
    rcases List.mem_cons.1 he with rfl | he
    · simp [mapLookup]
    · have hne : ¬ k0 = e.1 := by
        intro hk
        exact h.1 (hk ▸ List.mem_map_of_mem Prod.fst he)
      simp only [mapLookup, hne, if_false]
      exact ih h.2 he

theorem mem_of_mapLookup (m : GoMap) (k : Int) (t : Task)
    (h : mapLookup m k = some t) : (k, t) ∈ m := by
  induction m with
  | nil => simp [mapLookup] at h
  | cons e0 rest ih =>
    obtain ⟨k0, t0⟩ := e0
    by_cases h0 : k0 = k
    · simp only [mapLookup, h0, if_true, Option.some.injEq] at h
      subst h0; subst h
      exact List.mem_cons_self _ _
    · simp only [mapLookup, h0, if_false] at h
      exact List.mem_cons_of_mem _ (ih h)

theorem wellKeyed_mapSet (m : GoMap) (k : Int) (t : Task) (h : WellKeyed m)
    (ht : t.done = false → k = t.id) : WellKeyed (mapSet m k t) := by
  refine ⟨nodup_mapSet m k t h.1, ?_⟩
  intro e he hd
  rcases mem_mapSet m k t e he with rfl | he
  · exact ht hd
  · exact h.2 e he hd

theorem eligible_not_done (timeout now : Int) (task : Task)
    (h : eligible timeout now task = true) : task.done = false := by
  unfold eligible at h
  cases hd : task.done
  · rfl
  · simp [hd] at h

theorem wellKeyed_getTaskToDo (tasks : GoMap) (timeout now : Int) (ord : List Nat)
    (h : WellKeyed tasks) : WellKeyed (getTaskToDo tasks timeout now ord).1 := by
  rcases getTaskToDo_cases tasks timeout now ord with ⟨_, heq⟩ | ⟨e, _, _, heq⟩
  · rw [heq]; exact h
  · rw [heq]
    exact wellKeyed_mapSet tasks _ _ h fun _ => rfl

theorem GetTask_fields (c : Coordinator) (now : Int) (ordM ordR : List Nat) :
    (GetTask c now ordM ordR).1.timeout = c.timeout ∧
      (GetTask c now ordM ordR).1.nReduce = c.nReduce ∧
      (GetTask c now ordM ordR).1.nMap = c.nMap := by
  rcases GetTask_cases c now ordM ordR with
    ⟨e, _, _, h⟩ | ⟨_, _, h⟩ | ⟨_, e, _, _, h⟩ | ⟨_, _, _, h⟩ | ⟨_, _, h⟩ <;>
  simp [h]

theorem wellKeyed_GetTask (c : Coordinator) (now : Int) (ordM ordR : List Nat)
    (hM : WellKeyed c.mapTasks) (hR : WellKeyed c.reduceTasks) :
    WellKeyed (GetTask c now ordM ordR).1.mapTasks ∧
      WellKeyed (GetTask c now ordM ordR).1.reduceTasks := by
  rcases GetTask_cases c now ordM ordR with
    ⟨e, _, _, h⟩ | ⟨_, _, h⟩ | ⟨_, e, _, _, h⟩ | ⟨_, _, _, h⟩ | ⟨_, _, h⟩
  · rw [h]; exact ⟨wellKeyed_mapSet _ _ _ hM fun _ => rfl, hR⟩
  · rw [h]; exact ⟨hM, hR⟩
  · rw [h]; exact ⟨hM, wellKeyed_mapSet _ _ _ hR fun _ => rfl⟩
  · rw [h]; exact ⟨hM, hR⟩
  · rw [h]; exact ⟨hM, hR⟩

theorem SetTaskDone_fields (c : Coordinator) (args : SetTaskDoneArgs) :
    (SetTaskDone c args).1.timeout = c.timeout ∧
      (SetTaskDone c args).1.nReduce = c.nReduce ∧
      (SetTaskDone c args).1.nMap = c.nMap := by
  unfold SetTaskDone
  split_ifs <;> simp

theorem wellKeyed_SetTaskDone (c : Coordinator) (args : SetTaskDoneArgs)
    (hM : WellKeyed c.mapTasks) (hR : WellKeyed c.reduceTasks) :
    WellKeyed (SetTaskDone c args).1.mapTasks ∧
      WellKeyed (SetTaskDone c args).1.reduceTasks := by
  unfold SetTaskDone
  split_ifs
  · exact ⟨wellKeyed_mapSet _ _ _ hM fun h => by simp at h, hR⟩
  · exact ⟨hM, wellKeyed_mapSet _ _ _ hR fun h => by simp at h⟩
  · exact ⟨hM, hR⟩

theorem wellKeyed_step (c : Coordinator) (op : Op)
    (hM : WellKeyed c.mapTasks) (hR : WellKeyed c.reduceTasks) :
    WellKeyed (step c op).mapTasks ∧ WellKeyed (step c op).reduceTasks := by
  cases op with
  | getTask now ordM ordR => exact wellKeyed_GetTask c now ordM ordR hM hR
  | setTaskDone args => exact wellKeyed_SetTaskDone c args hM hR
  | done => exact ⟨hM, hR⟩

theorem step_fields (c : Coordinator) (op : Op) :
    (step c op).timeout = c.timeout ∧ (step c op).nReduce = c.nReduce ∧
      (step c op).nMap = c.nMap := by
  cases op with
  | getTask now ordM ordR => exact GetTask_fields c now ordM ordR
  | setTaskDone args => exact SetTaskDone_fields c args
  | done => exact ⟨rfl, rfl, rfl⟩

theorem wellKeyed_run (ops : List Op) (c : Coordinator)
    (hM : WellKeyed c.mapTasks) (hR : WellKeyed c.reduceTasks) :
    WellKeyed (run c ops).mapTasks ∧ WellKeyed (run c ops).reduceTasks := by
  induction ops generalizing c with
  | nil => exact ⟨hM, hR⟩
  | cons op rest ih =>
    have h := wellKeyed_step c op hM hR
    exact ih (step c op) h.1 h.2

theorem run_fields (ops : List Op) (c : Coordinator) :
    (run c ops).timeout = c.timeout ∧ (run c ops).nReduce = c.nReduce ∧
      (run c ops).nMap = c.nMap := by
  induction ops generalizing c with
  | nil => exact ⟨rfl, rfl, rfl⟩
  | cons op rest ih =>
    obtain ⟨h1, h2, h3⟩ := ih (step c op)
    obtain ⟨g1, g2, g3⟩ := step_fields c op
    exact ⟨h1.trans g1, h2.trans g2, h3.trans g3⟩

theorem mem_mapKeys_mapSet (m : GoMap) (k : Int) (t : Task) (k1 : Int)
    (h : k1 ∈ mapKeys (mapSet m k t)) : k1 = k ∨ k1 ∈ mapKeys m := by
  obtain ⟨e, he, rfl⟩ := List.mem_map.1 h
  rcases mem_mapSet m k t e he with rfl | he
  · exact Or.inl rfl
  · exact Or.inr (List.mem_map_of_mem Prod.fst he)

theorem initMapTasks_spec (files : List String) (tasks : GoMap) (i : Nat)
    (hW : WellKeyed tasks) (hlt : ∀ k ∈ mapKeys tasks, k < (i : Int)) :
    WellKeyed (initMapTasks tasks i files) ∧
      (initMapTasks tasks i files).length = tasks.length + files.length := by
  induction files generalizing tasks i with
  | nil => exact ⟨hW, rfl⟩
  | cons f rest ih =>
    unfold initMapTasks
    have hni : (i : Int) ∉ mapKeys tasks := fun hmem => lt_irrefl _ (hlt _ hmem)
    have hW1 := wellKeyed_mapSet tasks i
      { id := i, filenames := [f], done := false, assigned := false, startedAt := 0 }
      hW fun _ => rfl
    have hlt1 : ∀ k ∈ mapKeys (mapSet tasks i
        { id := i, filenames := [f], done := false, assigned := false, startedAt := 0 }),
        k < ((i + 1 : Nat) : Int) := by
      intro k hk
      rcases mem_mapKeys_mapSet _ _ _ _ hk with rfl | hk
      · push_cast; omega
      · have := hlt k hk
        push_cast; omega
    obtain ⟨h1, h2⟩ := ih _ (i + 1) hW1 hlt1
    refine ⟨h1, ?_⟩
    rw [h2, mapSet_of_not_mem _ _ _ hni]
    simp
    omega

theorem initReduceTasks_spec (n : Nat) (tasks : GoMap) (i : Nat)
    (hW : WellKeyed tasks) (hlt : ∀ k ∈ mapKeys tasks, k < (i : Int)) :
    WellKeyed (initReduceTasks tasks i n) ∧
      (initReduceTasks tasks i n).length = tasks.length + n := by
  induction n generalizing tasks i with
  | zero => exact ⟨hW, rfl⟩
  | succ n ih =>
    unfold initReduceTasks
    have hni : (i : Int) ∉ mapKeys tasks := fun hmem => lt_irrefl _ (hlt _ hmem)
    have hW1 := wellKeyed_mapSet tasks i
      { id := i, filenames := [], done := false, assigned := false, startedAt := 0 }
      hW fun _ => rfl
    have hlt1 : ∀ k ∈ mapKeys (mapSet tasks i
        { id := i, filenames := [], done := false, assigned := false, startedAt := 0 }),
        k < ((i + 1 : Nat) : Int) := by
      intro k hk
      rcases mem_mapKeys_mapSet _ _ _ _ hk with rfl | hk
      · push_cast; omega
      · have := hlt k hk
        push_cast; omega
    obtain ⟨h1, h2⟩ := ih _ (i + 1) hW1 hlt1
    refine ⟨h1, ?_⟩
    rw [h2, mapSet_of_not_mem _ _ _ hni]
    simp
    omega

theorem wellKeyed_nil : WellKeyed [] :=
  ⟨List.nodup_nil, fun _ h => by cases h⟩

theorem wellKeyed_MakeCoordinator (files : List String) (nReduce : Int) :
    WellKeyed (MakeCoordinator files nReduce).mapTasks ∧
      WellKeyed (MakeCoordinator files nReduce).reduceTasks :=
  ⟨(initMapTasks_spec files [] 0 wellKeyed_nil (fun _ h => by cases h)).1,
   (initReduceTasks_spec nReduce.toNat [] 0 wellKeyed_nil (fun _ h => by cases h)).1⟩

/-- Every state reachable from `MakeCoordinator` is well keyed. -/
theorem wellKeyed_reachable (files : List String) (nReduce : Int) (ops : List Op) :
    WellKeyed (run (MakeCoordinator files nReduce) ops).mapTasks ∧
      WellKeyed (run (MakeCoordinator files nReduce) ops).reduceTasks :=
  wellKeyed_run ops _ (wellKeyed_MakeCoordinator files nReduce).1
    (wellKeyed_MakeCoordinator files nReduce).2

theorem timeout_reachable (files : List String) (nReduce : Int) (ops : List Op) :
    (run (MakeCoordinator files nReduce) ops).timeout = 10 * Second :=
  (run_fields ops _).1

theorem cmd_ne : MAP ≠ REDUCE ∧ MAP ≠ WAIT ∧ MAP ≠ EXIT ∧ REDUCE ≠ WAIT ∧ REDUCE ≠ EXIT ∧
    WAIT ≠ EXIT := by decide

/-- C1. Phase ordering: in every state reachable from `MakeCoordinator` by any
sequence of calls at any times, and for every order of the visits, a `GetTask`
that returns the REDUCE command finds every Map task of the table done. -/
theorem getTask_reduce_needs_maps_done (files : List String) (nReduce : Int)
    (ops : List Op) (now : Int) (ordM ordR : List Nat)
    (h : (GetTask (reached files nReduce ops) now ordM ordR).2.Command = REDUCE) :
    ∀ e ∈ (reached files nReduce ops).mapTasks, e.2.done = true := by
  obtain ⟨h1, h2, h3, h4, h5, h6⟩ := cmd_ne
  rcases GetTask_cases (reached files nReduce ops) now ordM ordR with
    ⟨e, _, _, hg⟩ | ⟨_, _, hg⟩ | ⟨hall, _⟩ | ⟨hall, _⟩ | ⟨hall, _⟩
  · rw [hg] at h; exact absurd h h1
  · rw [hg] at h; exact absurd h.symm h4
  · exact hall
  · exact hall
  · exact hall

theorem getTask_reduce_needs_maps_done_witness :
    (GetTask (reached ["a.txt"] 1 [Op.getTask 0 [] [], Op.setTaskDone ⟨MAP, 0⟩])
        7 [] []).2.Command = REDUCE ∧
      ∀ e ∈ (reached ["a.txt"] 1 [Op.getTask 0 [] [], Op.setTaskDone ⟨MAP, 0⟩]).mapTasks,
        e.2.done = true :=
  ⟨by decide, getTask_reduce_needs_maps_done ["a.txt"] 1
      [Op.getTask 0 [] [], Op.setTaskDone ⟨MAP, 0⟩] 7 [] [] (by decide)⟩

/-- C2. Completion: `Done()` returns true exactly when every task of the Map
table and every task of the Reduce table is done. -/
theorem done_iff_all_tasks_done (c : Coordinator) :
    Done c = true ↔
      (∀ e ∈ c.mapTasks, e.2.done = true) ∧ (∀ e ∈ c.reduceTasks, e.2.done = true) := by
  unfold Done
  rw [Bool.and_eq_true, areTasksDone_iff, areTasksDone_iff]

theorem doneKept_refl (m : GoMap) : DoneKept m m :=
  fun _ t h hd => ⟨t, h, hd⟩

theorem doneKept_mapSet_done (m : GoMap) (k : Int) (t : Task) (ht : t.done = true) :
    DoneKept m (mapSet m k t) := by
  intro k1 t1 h1 hd1
  rw [mapLookup_mapSet]
  by_cases hk : k = k1
  · exact ⟨t, by simp [hk], ht⟩
  · exact ⟨t1, by simp [hk, h1], hd1⟩

theorem doneKept_mapSet_stamped (m : GoMap) (now : Int) (e : Int × Task)
    (hW : WellKeyed m) (he : e ∈ m) (hd : e.2.done = false) :
    DoneKept m (mapSet m e.2.id (stamped now e.2)) := by
  intro k1 t1 h1 hd1
  rw [mapLookup_mapSet]
  by_cases hk : e.2.id = k1
  · exfalso
    have hkey : e.1 = k1 := (hW.2 e he hd).trans hk
    have h2 := mapLookup_of_mem m hW.1 e he
    rw [hkey, h1] at h2
    have : t1 = e.2 := Option.some.inj h2
    rw [this, hd] at hd1
    cases hd1
  · exact ⟨t1, by simp [hk, h1], hd1⟩

/-- One call on a coordinator with well keyed tables keeps every done task in
its table and done. -/
theorem doneKept_step (c : Coordinator) (op : Op)
    (hM : WellKeyed c.mapTasks) (hR : WellKeyed c.reduceTasks) :
    DoneKept c.mapTasks (step c op).mapTasks ∧
      DoneKept c.reduceTasks (step c op).reduceTasks := by
  cases op with
  | getTask now ordM ordR =>
    show DoneKept c.mapTasks (GetTask c now ordM ordR).1.mapTasks ∧
      DoneKept c.reduceTasks (GetTask c now ordM ordR).1.reduceTasks
    rcases GetTask_cases c now ordM ordR with
      ⟨e, he, hel, h⟩ | ⟨_, _, h⟩ | ⟨_, e, he, hel, h⟩ | ⟨_, _, _, h⟩ | ⟨_, _, h⟩
    · rw [h]
      exact ⟨doneKept_mapSet_stamped _ now e hM he (eligible_not_done _ _ _ hel),
        doneKept_refl _⟩
    · rw [h]; exact ⟨doneKept_refl _, doneKept_refl _⟩
    · rw [h]
      exact ⟨doneKept_refl _,
        doneKept_mapSet_stamped _ now e hR he (eligible_not_done _ _ _ hel)⟩
    · rw [h]; exact ⟨doneKept_refl _, doneKept_refl _⟩
    · rw [h]; exact ⟨doneKept_refl _, doneKept_refl _⟩
  | setTaskDone args =>
    show DoneKept c.mapTasks (SetTaskDone c args).1.mapTasks ∧
      DoneKept c.reduceTasks (SetTaskDone c args).1.reduceTasks
    unfold SetTaskDone
    split_ifs
    · exact ⟨doneKept_mapSet_done _ _ _ rfl, doneKept_refl _⟩
    · exact ⟨doneKept_refl _, doneKept_mapSet_done _ _ _ rfl⟩
    · exact ⟨doneKept_refl _, doneKept_refl _⟩
  | done => exact ⟨doneKept_refl _, doneKept_refl _⟩

/-- C3. The done flag is monotone: for every coordinator state, that is every
state reached from `MakeCoordinator` by any sequence of calls, and every single
call (GetTask at any time and in any order of visit, SetTaskDone with any
command and task id, Done), every task that is done before the call is still
in its table and done after it. -/
theorem done_flag_monotone (files : List String) (nReduce : Int) (ops : List Op)
    (op : Op) :
    DoneKept (reached files nReduce ops).mapTasks
        (step (reached files nReduce ops) op).mapTasks ∧
      DoneKept (reached files nReduce ops).reduceTasks
        (step (reached files nReduce ops) op).reduceTasks :=
  doneKept_step (reached files nReduce ops) op
    (wellKeyed_reachable files nReduce ops).1 (wellKeyed_reachable files nReduce ops).2

/-- C3 at a reached state: two files, Map task 0 handed out at time 0 and
reported done, then a `GetTask` at time 1 that hands out task 1; task 0 is
still done. -/
theorem done_flag_monotone_witness :
    mapLookup (reached ["a.txt", "b.txt"] 1
        [Op.getTask 0 [] [], Op.setTaskDone ⟨MAP, 0⟩]).mapTasks 0 =
        some { id := 0, filenames := ["a.txt"], done := true, assigned := true,
               startedAt := 0 } ∧
      ∃ t1, mapLookup (step (reached ["a.txt", "b.txt"] 1
          [Op.getTask 0 [] [], Op.setTaskDone ⟨MAP, 0⟩]) (Op.getTask 1 [] [])).mapTasks 0 =
          some t1 ∧ t1.done = true :=
  ⟨by decide,
    (done_flag_monotone ["a.txt", "b.txt"] 1 [Op.getTask 0 [] [], Op.setTaskDone ⟨MAP, 0⟩]
      (Op.getTask 1 [] [])).1 0
      { id := 0, filenames := ["a.txt"], done := true, assigned := true, startedAt := 0 }
      (by decide) rfl⟩

/-- C4. Map assignment: in a state reachable from `MakeCoordinator`, when some
Map task is not done and is unassigned or timed out, `GetTask` (in any order of
visit) returns the MAP command with the id and the filenames of one such task
and the coordinator's nReduce; after the call that task, stored under its id,
is assigned with `startedAt` equal to the time of the call and is otherwise as
before, every other Map task is unchanged and so is the Reduce table. -/
theorem getTask_map_assignment (files : List String) (nReduce : Int) (ops : List Op)
    (now : Int) (ordM ordR : List Nat)
    (h : ∃ e ∈ (reached files nReduce ops).mapTasks,
      e.2.done = false ∧
        (e.2.assigned = false ∨
          hasTimedout e.2.startedAt (reached files nReduce ops).timeout now = true)) :
    ∃ e ∈ (reached files nReduce ops).mapTasks,
      e.2.done = false ∧
      (e.2.assigned = false ∨
        hasTimedout e.2.startedAt (reached files nReduce ops).timeout now = true) ∧
      e.1 = e.2.id ∧
      (GetTask (reached files nReduce ops) now ordM ordR).2 =
        { Command := MAP, TaskId := e.2.id, Filenames := e.2.filenames,
          NReduce := (reached files nReduce ops).nReduce, NMap := 0 } ∧
      mapLookup (GetTask (reached files nReduce ops) now ordM ordR).1.mapTasks e.2.id =
        some { e.2 with assigned := true, startedAt := now } ∧
      (∀ k, k ≠ e.2.id →
        mapLookup (GetTask (reached files nReduce ops) now ordM ordR).1.mapTasks k =
          mapLookup (reached files nReduce ops).mapTasks k) ∧
      (GetTask (reached files nReduce ops) now ordM ordR).1.reduceTasks =
        (reached files nReduce ops).reduceTasks := by
  have hW := (wellKeyed_reachable files nReduce ops).1
  have helig : ∀ t : Task, eligible (reached files nReduce ops).timeout now t = true ↔
      (t.done = false ∧ (t.assigned = false ∨
        hasTimedout t.startedAt (reached files nReduce ops).timeout now = true)) := by
    intro t
    unfold eligible
    cases t.done <;> cases t.assigned <;> simp
  rcases GetTask_cases (reached files nReduce ops) now ordM ordR with
    ⟨e, he, hel, hg⟩ | ⟨hno, _, _⟩ | ⟨hall, _⟩ | ⟨hall, _⟩ | ⟨hall, _⟩
  · have hel1 := (helig e.2).1 hel
    refine ⟨e, he, hel1.1, hel1.2, hW.2 e he hel1.1, ?_, ?_, ?_, ?_⟩
    · rw [hg]
    · rw [hg]
      simp [mapLookup_mapSet, stamped]
    · intro k hk
      rw [hg]
      simp only [mapLookup_mapSet]
      rw [if_neg fun hk1 => hk hk1.symm]
    · rw [hg]
  · obtain ⟨e, he, hel⟩ := h
    have := hno e he
    rw [(helig e.2).2 hel] at this
    cases this
  all_goals
    obtain ⟨e, he, hel⟩ := h
    have := hall e he
    rw [hel.1] at this
    cases this

theorem getTask_map_assignment_witness :
    (∃ e ∈ (reached ["a.txt", "b.txt"] 2 [Op.getTask 0 [] []]).mapTasks,
      e.2.done = false ∧
        (e.2.assigned = false ∨
          hasTimedout e.2.startedAt
            (reached ["a.txt", "b.txt"] 2 [Op.getTask 0 [] []]).timeout 5 = true)) ∧
      ∃ e ∈ (reached ["a.txt", "b.txt"] 2 [Op.getTask 0 [] []]).mapTasks,
        (GetTask (reached ["a.txt", "b.txt"] 2 [Op.getTask 0 [] []]) 5 [1, 0] []).2 =
          { Command := MAP, TaskId := e.2.id, Filenames := e.2.filenames,
            NReduce := 2, NMap := 0 } :=
  ⟨by decide, by
    obtain ⟨e, he, _, _, _, hr, _⟩ :=
      getTask_map_assignment ["a.txt", "b.txt"] 2 [Op.getTask 0 [] []] 5 [1, 0] []
        (by decide)
    exact ⟨e, he, hr⟩⟩

/-- C5. `GetTask` returns the EXIT command if and only if every Map task and
every Reduce task is done at the time of the call, that is, if and only if
`Done()` would return true in that state. -/
theorem getTask_exit_iff_all_done (c : Coordinator) (now : Int) (ordM ordR : List Nat) :
    ((GetTask c now ordM ordR).2.Command = EXIT ↔
        (∀ e ∈ c.mapTasks, e.2.done = true) ∧ (∀ e ∈ c.reduceTasks, e.2.done = true)) ∧
      ((GetTask c now ordM ordR).2.Command = EXIT ↔ Done c = true) := by
  obtain ⟨h1, h2, h3, h4, h5, h6⟩ := cmd_ne
  have hdone : Done c = true ↔
      (∀ e ∈ c.mapTasks, e.2.done = true) ∧ (∀ e ∈ c.reduceTasks, e.2.done = true) := by
    unfold Done
    rw [Bool.and_eq_true, areTasksDone_iff, areTasksDone_iff]
  have key : (GetTask c now ordM ordR).2.Command = EXIT ↔
      (∀ e ∈ c.mapTasks, e.2.done = true) ∧ (∀ e ∈ c.reduceTasks, e.2.done = true) := by
    rcases GetTask_cases c now ordM ordR with
      ⟨e, he, hel, hg⟩ | ⟨_, ⟨e, he, hd⟩, hg⟩ | ⟨_, e, he, hel, hg⟩ |
      ⟨_, _, ⟨e, he, hd⟩, hg⟩ | ⟨hM, hR, hg⟩
    · rw [hg]
      constructor
      · intro h; exact absurd h h3
      · intro h
        have := h.1 e he
        rw [eligible_not_done _ _ _ hel] at this
        cases this
    · rw [hg]
      constructor
      · intro h; exact absurd h h6
      · intro h
        have := h.1 e he
        rw [hd] at this
        cases this
    · rw [hg]
      constructor
      · intro h; exact absurd h h5
      · intro h
        have := h.2 e he
        rw [eligible_not_done _ _ _ hel] at this
        cases this
    · rw [hg]
      constructor
      · intro h; exact absurd h h6
      · intro h
        have := h.2 e he
        rw [hd] at this
        cases this
    · rw [hg]
      exact ⟨fun _ => ⟨hM, hR⟩, fun _ => rfl⟩
  exact ⟨key, key.trans hdone.symm⟩

/-- C6. Wait directive: when no Map task is eligible but some Map task is not
done, `GetTask` returns WAIT; when every Map task is done, no Reduce task is
eligible and some Reduce task is not done, `GetTask` returns WAIT; and whenever
`GetTask` returns WAIT or EXIT the coordinator, its two task tables included,
is left exactly as it was. -/
theorem getTask_wait_directive (c : Coordinator) (now : Int) (ordM ordR : List Nat) :
    ((∀ e ∈ c.mapTasks, e.2.done = true ∨
          (e.2.assigned = true ∧ hasTimedout e.2.startedAt c.timeout now = false)) →
        (∃ e ∈ c.mapTasks, e.2.done = false) →
        (GetTask c now ordM ordR).2.Command = WAIT) ∧
      ((∀ e ∈ c.mapTasks, e.2.done = true) →
        (∀ e ∈ c.reduceTasks, e.2.done = true ∨
          (e.2.assigned = true ∧ hasTimedout e.2.startedAt c.timeout now = false)) →
        (∃ e ∈ c.reduceTasks, e.2.done = false) →
        (GetTask c now ordM ordR).2.Command = WAIT) ∧
      ((GetTask c now ordM ordR).2.Command = WAIT ∨
          (GetTask c now ordM ordR).2.Command = EXIT →
        (GetTask c now ordM ordR).1 = c) := by
  obtain ⟨h1, h2, h3, h4, h5, h6⟩ := cmd_ne
  have hinel : ∀ t : Task, (t.done = true ∨
      (t.assigned = true ∧ hasTimedout t.startedAt c.timeout now = false)) →
      eligible c.timeout now t = false := by
    intro t ht
    unfold eligible
    rcases ht with ht | ⟨ha, hto⟩
    · simp [ht]
    · simp [ha, hto]
  rcases GetTask_cases c now ordM ordR with
    ⟨e, he, hel, hg⟩ | ⟨_, ⟨e, he, hd⟩, hg⟩ | ⟨hallM, e, he, hel, hg⟩ |
    ⟨_, _, ⟨e, he, hd⟩, hg⟩ | ⟨hM, hR, hg⟩
  · refine ⟨fun hno _ => ?_, fun hall _ _ => ?_, fun hc => ?_⟩
    · have := hinel e.2 (hno e he)
      rw [hel] at this
      cases this
    · have := hall e he
      rw [eligible_not_done _ _ _ hel] at this
      cases this
    · rw [hg] at hc
      rcases hc with hc | hc
      · exact absurd hc h2
      · exact absurd hc h3
  · rw [hg]
    exact ⟨fun _ _ => rfl, fun _ _ _ => rfl, fun _ => rfl⟩
  · refine ⟨fun _ hex => ?_, fun _ hno _ => ?_, fun hc => ?_⟩
    · obtain ⟨e1, he1, hd1⟩ := hex
      have := hallM e1 he1
      rw [hd1] at this
      cases this
    · have := hinel e.2 (hno e he)
      rw [hel] at this
      cases this
    · rw [hg] at hc
      rcases hc with hc | hc
      · exact absurd hc h4
      · exact absurd hc h5
  · rw [hg]
    exact ⟨fun _ _ => rfl, fun _ _ _ => rfl, fun _ => rfl⟩
  · rw [hg]
    refine ⟨fun _ hex => ?_, fun _ _ hex => ?_, fun _ => rfl⟩
    · obtain ⟨e1, he1, hd1⟩ := hex
      have := hM e1 he1
      rw [hd1] at this
      cases this
    · obtain ⟨e1, he1, hd1⟩ := hex
      have := hR e1 he1
      rw [hd1] at this
      cases this

/-- The three parts of C6 at reachable states: the only Map task handed out at
time 0 and asked for again at time 5; the only Reduce task handed out at time 6
and asked for again at time 9. -/
theorem getTask_wait_directive_witness :
    (GetTask (reached ["a.txt"] 1 [Op.getTask 0 [] []]) 5 [] []).2.Command = WAIT ∧
      (GetTask (reached ["a.txt"] 1
          [Op.getTask 0 [] [], Op.setTaskDone ⟨MAP, 0⟩, Op.getTask 6 [] []])
        9 [] []).2.Command = WAIT ∧
      (GetTask (reached ["a.txt"] 1 [Op.getTask 0 [] []]) 5 [] []).1 =
        reached ["a.txt"] 1 [Op.getTask 0 [] []] :=
  ⟨(getTask_wait_directive (reached ["a.txt"] 1 [Op.getTask 0 [] []]) 5 [] []).1
      (by decide) (by decide),
    (getTask_wait_directive (reached ["a.txt"] 1
        [Op.getTask 0 [] [], Op.setTaskDone ⟨MAP, 0⟩, Op.getTask 6 [] []]) 9 [] []).2.1
      (by decide) (by decide) (by decide),
    (getTask_wait_directive (reached ["a.txt"] 1 [Op.getTask 0 [] []]) 5 [] []).2.2
      (Or.inl (by decide))⟩

theorem hasTimedout_of_lt (startedAt timeout now : Int) (hto : timeout < maxDuration)
    (h : startedAt + timeout < now) : hasTimedout startedAt timeout now = true := by
  unfold hasTimedout timeSub
  unfold maxDuration at *
  unfold minDuration
  simp only [decide_eq_true_eq]
  split_ifs <;> omega

/-- C7 fails at the instant `T + timeout`: the only Map task, handed out at
time 0 and not done, is not eligible at time `0 + 10 s`, and `GetTask` at that
time returns WAIT. -/
theorem not_reassigned_at_exact_timeout :
    (reached ["a.txt"] 1 [Op.getTask 0 [] []]).mapTasks =
        [(0, { id := 0, filenames := ["a.txt"], done := false, assigned := true,
               startedAt := 0 })] ∧
      (reached ["a.txt"] 1 [Op.getTask 0 [] []]).timeout = 10000000000 ∧
      eligible 10000000000 (0 + 10000000000)
        { id := 0, filenames := ["a.txt"], done := false, assigned := true,
          startedAt := 0 } = false ∧
      (GetTask (reached ["a.txt"] 1 [Op.getTask 0 [] []]) (0 + 10000000000) [] []).2 =
        { Command := WAIT, TaskId := 0, Filenames := [], NReduce := 0, NMap := 0 } := by
  decide

/-- C7, amended. Timeout reassignment: in a state reachable from
`MakeCoordinator`, a task assigned at time T that is still not done is eligible
for reassignment at every `GetTask` call at a time strictly later than
`T + timeout`; if it is the only Map task that is not done, that call returns
it as a MAP assignment. -/
theorem reassigned_after_timeout (files : List String) (nReduce : Int) (ops : List Op)
    (now T : Int) (ordM ordR : List Nat) (task : Task)
    (hd : task.done = false) (ha : task.assigned = true) (hT : task.startedAt = T)
    (ht : T + (reached files nReduce ops).timeout < now) :
    eligible (reached files nReduce ops).timeout now task = true ∧
      ∀ k, (k, task) ∈ (reached files nReduce ops).mapTasks →
        (∀ e ∈ (reached files nReduce ops).mapTasks, e.2.done = false → e = (k, task)) →
        (GetTask (reached files nReduce ops) now ordM ordR).2 =
          { Command := MAP, TaskId := k, Filenames := task.filenames,
            NReduce := nReduce, NMap := 0 } := by
  have hto : (reached files nReduce ops).timeout = 10 * Second :=
    timeout_reachable files nReduce ops
  have hn : (reached files nReduce ops).nReduce = nReduce := (run_fields ops _).2.1
  have hW := (wellKeyed_reachable files nReduce ops).1
  have hlt : (reached files nReduce ops).timeout < maxDuration := by
    rw [hto]; decide
  have hel : eligible (reached files nReduce ops).timeout now task = true := by
    unfold eligible
    rw [hd, ha, hasTimedout_of_lt _ _ _ hlt (hT ▸ ht)]
    rfl
  refine ⟨hel, fun k hk honly => ?_⟩
  rcases GetTask_cases (reached files nReduce ops) now ordM ordR with
    ⟨e, he, hel1, hg⟩ | ⟨hno, _, _⟩ | ⟨hall, _⟩ | ⟨hall, _⟩ | ⟨hall, _⟩
  · have heq := honly e he (eligible_not_done _ _ _ hel1)
    have hkey : k = task.id := hW.2 (k, task) hk hd
    rw [hg, hn, heq]
    simp [hkey]
  · have := hno (k, task) hk
    rw [hel] at this
    cases this
  all_goals
    have := hall (k, task) hk
    simp only [hd] at this
    cases this

theorem reassigned_after_timeout_witness :
    (0 : Int) + (reached ["a.txt"] 1 [Op.getTask 0 [] []]).timeout < 10000000001 ∧
      (GetTask (reached ["a.txt"] 1 [Op.getTask 0 [] []]) 10000000001 [] []).2 =
        { Command := MAP, TaskId := 0, Filenames := ["a.txt"], NReduce := 1, NMap := 0 } :=
  ⟨by decide,
    (reassigned_after_timeout ["a.txt"] 1 [Op.getTask 0 [] []] 10000000001 0 [] []
      { id := 0, filenames := ["a.txt"], done := false, assigned := true, startedAt := 0 }
      rfl rfl rfl (by decide)).2 0 (by decide) (by decide)⟩

/-- C8. `SetTaskDone` with a command that is neither MAP nor REDUCE returns an
error and leaves the coordinator, its two task tables included, as it was; with
the command MAP or REDUCE it returns no error. -/
theorem setTaskDone_unknown_command (c : Coordinator) (args : SetTaskDoneArgs) :
    (args.Command ≠ MAP → args.Command ≠ REDUCE →
        (SetTaskDone c args).2 = some "unknown command" ∧ (SetTaskDone c args).1 = c) ∧
      (args.Command = MAP ∨ args.Command = REDUCE → (SetTaskDone c args).2 = none) := by
  unfold SetTaskDone
  refine ⟨fun h1 h2 => ?_, fun h => ?_⟩
  · rw [if_neg h1, if_neg h2]
    exact ⟨rfl, rfl⟩
  · rcases h with h | h
    · rw [if_pos h]
    · split_ifs <;> rfl

theorem setTaskDone_unknown_command_witness :
    ((SetTaskDone (reached ["a.txt"] 1 []) ⟨WAIT, 0⟩).2 = some "unknown command" ∧
        (SetTaskDone (reached ["a.txt"] 1 []) ⟨WAIT, 0⟩).1 = reached ["a.txt"] 1 []) ∧
      ((SetTaskDone (reached ["a.txt"] 1 []) ⟨"", 0⟩).2 = some "unknown command" ∧
        (SetTaskDone (reached ["a.txt"] 1 []) ⟨"", 0⟩).1 = reached ["a.txt"] 1 []) ∧
      (SetTaskDone (reached ["a.txt"] 1 []) ⟨REDUCE, 0⟩).2 = none :=
  ⟨(setTaskDone_unknown_command (reached ["a.txt"] 1 []) ⟨WAIT, 0⟩).1
      (by decide) (by decide),
    (setTaskDone_unknown_command (reached ["a.txt"] 1 []) ⟨"", 0⟩).1
      (by decide) (by decide),
    (setTaskDone_unknown_command (reached ["a.txt"] 1 []) ⟨REDUCE, 0⟩).2
      (Or.inr (by decide))⟩

/-- C9, the code at the failing input: a coordinator made for one file has
nMap = 1 and one Map task; after `SetTaskDone` with command MAP and task id 7,
which names no task, the Map table holds two entries, the second one a task
with id 0 stored under key 7. -/
theorem setTaskDone_unknown_id_adds_task :
    (reached ["a.txt"] 1 []).nMap = 1 ∧
      (reached ["a.txt"] 1 []).mapTasks.length = 1 ∧
      (reached ["a.txt"] 1 [Op.setTaskDone ⟨MAP, 7⟩]).nMap = 1 ∧
      (reached ["a.txt"] 1 [Op.setTaskDone ⟨MAP, 7⟩]).mapTasks =
        [(0, { id := 0, filenames := ["a.txt"], done := false, assigned := false,
               startedAt := 0 }),
         (7, { id := 0, filenames := [], done := true, assigned := false,
               startedAt := 0 })] ∧
      (SetTaskDone (reached ["a.txt"] 1 []) ⟨MAP, 7⟩).2 = none := by
  decide

/-! ## Lemmas and theorems: the worker -/

theorem less_eq_false_iff (a b : KeyValue) : Less b a = false ↔ a.Key ≤ b.Key := by
  unfold Less
  rw [decide_eq_false_iff_not, ← String.toList, ← String.toList, ← String.lt_iff_toList_lt,
    not_lt]

theorem dropWhile_key_ne (kv : KeyValue) (rest : List KeyValue)
    (h : (kv :: rest).Pairwise fun a b => a.Key ≤ b.Key) :
    ∀ x ∈ rest.dropWhile (fun x => x.Key == kv.Key), x.Key ≠ kv.Key := by
  induction rest with
  | nil => intro x hx; cases hx
  | cons y ys ih =>
    rw [List.pairwise_cons] at h
    obtain ⟨hkv, hrest⟩ := h
    rw [List.pairwise_cons] at hrest
    by_cases hy : y.Key = kv.Key
    · have hp : (kv :: ys).Pairwise fun a b => a.Key ≤ b.Key :=
        List.pairwise_cons.2 ⟨fun b hb => hkv b (List.mem_cons_of_mem _ hb), hrest.2⟩
      rw [List.dropWhile_cons_of_pos (by simpa using hy)]
      exact ih hp
    · intro x hx
      rw [List.dropWhile_cons_of_neg (by simpa using hy)] at hx
      have hlt : kv.Key < y.Key :=
        lt_of_le_of_ne (hkv y (List.mem_cons_self _ _)) (Ne.symm hy)
      rcases List.mem_cons.1 hx with rfl | hx2
      · exact hy
      · exact ne_of_gt (lt_of_lt_of_le hlt (hrest.1 x hx2))

theorem reduceLoop_spec (reducef : String → List String → String) (fuel : Nat) :
    ∀ l : List KeyValue, l.length ≤ fuel → (l.Pairwise fun a b => a.Key ≤ b.Key) →
      ((reduceLoop reducef fuel l).map ReduceCall.key).Nodup ∧
      (∀ k, k ∈ (reduceLoop reducef fuel l).map ReduceCall.key ↔
        k ∈ l.map KeyValue.Key) ∧
      (∀ c ∈ reduceLoop reducef fuel l, c.values = valuesOf c.key l ∧
        c.line = c.key ++ " " ++ reducef c.key c.values ++ "\n") := by
  induction fuel with
  | zero =>
    intro l hl _
    have : l = [] := List.length_eq_zero.1 (Nat.le_zero.1 hl)
    subst this
    simp [reduceLoop]
  | succ fuel ih =>
    intro l hl hs
    cases l with
    | nil => simp [reduceLoop]
    | cons kv rest =>
      have hne := dropWhile_key_ne kv rest hs
      have hsub : (rest.dropWhile fun x => x.Key == kv.Key).Sublist rest :=
        List.dropWhile_sublist _
      have hlen : (rest.dropWhile fun x => x.Key == kv.Key).length ≤ fuel := by
        have := hsub.length_le
        simp only [List.length_cons] at hl
        omega
      have hs1 : (rest.dropWhile fun x => x.Key == kv.Key).Pairwise
          fun a b => a.Key ≤ b.Key :=
        (List.pairwise_cons.1 hs).2.sublist hsub
      obtain ⟨ihnd, ihmem, ihval⟩ := ih _ hlen hs1
      have hsplit := List.takeWhile_append_dropWhile (fun x : KeyValue => x.Key == kv.Key) rest
      have htw : ∀ x ∈ rest.takeWhile (fun x => x.Key == kv.Key), x.Key = kv.Key := by
        intro x hx
        simpa using List.mem_takeWhile_imp hx
      have hval : ∀ k, valuesOf k rest =
          valuesOf k (rest.takeWhile fun x => x.Key == kv.Key) ++
            valuesOf k (rest.dropWhile fun x => x.Key == kv.Key) := by
        intro k
        unfold valuesOf
        rw [← List.map_append, ← List.filter_append, hsplit]
      simp only [reduceLoop, List.map_cons, List.nodup_cons, List.forall_mem_cons]
      refine ⟨⟨?_, ihnd⟩, ?_, ⟨?_, trivial⟩, ?_⟩
      · intro hmem
        obtain ⟨x, hx, hxk⟩ := List.mem_map.1 ((ihmem kv.Key).1 hmem)
        exact hne x hx hxk
      · intro k
        rw [List.mem_cons, List.mem_cons]
        constructor
        · rintro (rfl | hk)
          · exact Or.inl rfl
          · obtain ⟨x, hx, hxk⟩ := List.mem_map.1 ((ihmem k).1 hk)
            exact Or.inr (List.mem_map.2 ⟨x, hsub.subset hx, hxk⟩)
        · rintro (rfl | hk)
          · exact Or.inl rfl
          · obtain ⟨x, hx, hxk⟩ := List.mem_map.1 hk
            rw [← hsplit] at hx
            rcases List.mem_append.1 hx with hx | hx
            · exact Or.inl (hxk ▸ htw x hx)
            · exact Or.inr ((ihmem k).2 (List.mem_map.2 ⟨x, hx, hxk⟩))
      · show _ = valuesOf kv.Key (kv :: rest)
        have h1 : valuesOf kv.Key (kv :: rest) = kv.Value :: valuesOf kv.Key rest := by
          simp [valuesOf]
        have h2 : valuesOf kv.Key (rest.takeWhile fun x => x.Key == kv.Key) =
            (rest.takeWhile fun x => x.Key == kv.Key).map fun x => x.Value := by
          unfold valuesOf
          rw [List.filter_eq_self.2 fun x hx => by simpa using htw x hx]
        have h3 : valuesOf kv.Key (rest.dropWhile fun x => x.Key == kv.Key) = [] := by
          unfold valuesOf
          rw [List.filter_eq_nil_iff.2 fun x hx => by simpa using hne x hx]
          rfl
        rw [h1, hval, h2, h3, List.append_nil]
      · intro c hc
        obtain ⟨hv, hline⟩ := ihval c hc
        refine ⟨?_, hline⟩
        have hck : c.key ≠ kv.Key := by
          obtain ⟨x, hx, hxk⟩ := List.mem_map.1
            ((ihmem c.key).1 (List.mem_map_of_mem ReduceCall.key hc))
          exact hxk ▸ hne x hx
        have h1 : valuesOf c.key (kv :: rest) = valuesOf c.key rest := by
          simp [valuesOf, List.filter_cons, Ne.symm hck]
        have h2 : valuesOf c.key (rest.takeWhile fun x => x.Key == kv.Key) = [] := by
          unfold valuesOf
          rw [List.filter_eq_nil_iff.2 fun x hx => by
            simpa using fun h : x.Key = c.key => hck (h ▸ htw x hx)]
          rfl
        rw [hv, h1, hval, h2, List.nil_append]

theorem insertByKey_perm (kv : KeyValue) (l : List KeyValue) :
    (insertByKey kv l).Perm (kv :: l) := by
  induction l with
  | nil => exact List.Perm.refl _
  | cons x rest ih =>
    unfold insertByKey
    split_ifs
    · exact List.Perm.refl _
    · exact (List.Perm.cons x ih).trans (List.Perm.swap kv x rest)

theorem insertionSortByKey_perm (l : List KeyValue) : (insertionSortByKey l).Perm l := by
  induction l with
  | nil => exact List.Perm.refl _
  | cons kv rest ih =>
    unfold insertionSortByKey
    exact (insertByKey_perm kv _).trans (List.Perm.cons kv ih)

theorem insertByKey_sorted (kv : KeyValue) (l : List KeyValue)
    (h : l.Pairwise fun a b => Less b a = false) :
    (insertByKey kv l).Pairwise fun a b => Less b a = false := by
  induction l with
  | nil => simp [insertByKey]
  | cons x rest ih =>
    rw [List.pairwise_cons] at h
    unfold insertByKey
    split_ifs with hlt
    · have hkx : kv.Key < x.Key := by
        unfold Less at hlt
        rw [decide_eq_true_eq, ← String.toList, ← String.toList,
          ← String.lt_iff_toList_lt] at hlt
        exact hlt
      refine List.pairwise_cons.2 ⟨?_, List.pairwise_cons.2 h⟩
      intro b hb
      rw [less_eq_false_iff]
      rcases List.mem_cons.1 hb with rfl | hb
      · exact le_of_lt hkx
      · exact le_trans (le_of_lt hkx) ((less_eq_false_iff _ _).1 (h.1 b hb))
    · have hxk : x.Key ≤ kv.Key := by
        rw [← less_eq_false_iff]
        simpa using hlt
      refine List.pairwise_cons.2 ⟨?_, ih h.2⟩
      intro b hb
      rcases List.mem_cons.1 ((insertByKey_perm kv rest).subset hb) with rfl | hb
      · exact (less_eq_false_iff _ _).2 hxk
      · exact h.1 b hb

/-- The insertion sort meets the contract of `sort.Sort` on every list. -/
theorem insertionSortByKey_sorted (l : List KeyValue) :
    (insertionSortByKey l).Pairwise fun a b => Less b a = false := by
  induction l with
  | nil => exact List.Pairwise.nil
  | cons kv rest ih =>
    unfold insertionSortByKey
    exact insertByKey_sorted kv _ ih

/-- C10. Reduce grouping: for every list of intermediate records and every
result of the sort (a permutation of the records in which no record is less by
key than an earlier one), every key that occurs in the records is passed to
`reducef` in exactly one call, no other key is passed, and the values of each
call are a permutation of the values of all records with the key of the call,
so that their number is the number of records with that key. -/
theorem reduce_grouping (sortByKey : List KeyValue → List KeyValue)
    (reducef : String → List String → String) (intermediate : List KeyValue)
    (hperm : (sortByKey intermediate).Perm intermediate)
    (hsorted : (sortByKey intermediate).Pairwise fun a b => Less b a = false) :
    (∀ k ∈ intermediate.map KeyValue.Key,
        ((doReduceTaskFrom sortByKey reducef intermediate).map ReduceCall.key).count k = 1) ∧
      ∀ c ∈ doReduceTaskFrom sortByKey reducef intermediate,
        c.key ∈ intermediate.map KeyValue.Key ∧
        c.values.Perm (valuesOf c.key intermediate) ∧
        c.values.length = (intermediate.filter fun kv => kv.Key = c.key).length := by
  have hs : (sortByKey intermediate).Pairwise fun a b => a.Key ≤ b.Key :=
    hsorted.imp fun {a b} h => (less_eq_false_iff a b).1 h
  obtain ⟨hnd, hmem, hval⟩ :=
    reduceLoop_spec reducef (sortByKey intermediate).length (sortByKey intermediate)
      (Nat.le_refl _) hs
  have hkeys : ∀ k, k ∈ (sortByKey intermediate).map KeyValue.Key ↔
      k ∈ intermediate.map KeyValue.Key := fun k => (hperm.map KeyValue.Key).mem_iff
  have hvperm : ∀ k, (valuesOf k (sortByKey intermediate)).Perm (valuesOf k intermediate) :=
    fun k => (hperm.filter _).map _
  refine ⟨fun k hk => ?_, fun c hc => ?_⟩
  · exact List.count_eq_one_of_mem hnd ((hmem k).2 ((hkeys k).2 hk))
  · have hv : c.values = valuesOf c.key (sortByKey intermediate) := (hval c hc).1
    refine ⟨(hkeys _).1 ((hmem _).1 (List.mem_map_of_mem ReduceCall.key hc)), ?_, ?_⟩
    · rw [hv]; exact hvperm _
    · rw [hv, (hvperm _).length_eq]
      simp [valuesOf]

/-- C10 on four records with the insertion sort: the key x occurs twice and is
passed once, with the values 3 and 1. -/
theorem reduce_grouping_witness :
    ((doReduceTaskFrom insertionSortByKey (fun _ values => String.join values)
        [⟨"x", "1"⟩, ⟨"y", "2"⟩, ⟨"x", "3"⟩, ⟨"a", "4"⟩]).map
        fun c => (c.key, c.values)) = [("a", ["4"]), ("x", ["3", "1"]), ("y", ["2"])] ∧
      ((doReduceTaskFrom insertionSortByKey (fun _ values => String.join values)
        [⟨"x", "1"⟩, ⟨"y", "2"⟩, ⟨"x", "3"⟩, ⟨"a", "4"⟩]).map ReduceCall.key).count "x" = 1 :=
  ⟨by decide,
    (reduce_grouping insertionSortByKey (fun _ values => String.join values)
      [⟨"x", "1"⟩, ⟨"y", "2"⟩, ⟨"x", "3"⟩, ⟨"a", "4"⟩] (by decide) (by decide)).1 "x"
      (by decide)⟩

/-! ## Lemmas and theorems: the coordinator over a sequence of calls -/

theorem lt_of_hasTimedout (startedAt timeout now : Int) (h0 : minDuration ≤ timeout)
    (h : hasTimedout startedAt timeout now = true) : timeout < now - startedAt := by
  unfold hasTimedout timeSub at h
  unfold minDuration at h0
  unfold maxDuration minDuration at h
  simp only [decide_eq_true_eq] at h
  split_ifs at h <;> omega

theorem lt_of_eligible_assigned (timeout now : Int) (task : Task)
    (h0 : minDuration ≤ timeout) (hel : eligible timeout now task = true)
    (ha : task.assigned = true) : timeout < now - task.startedAt := by
  unfold eligible at hel
  rw [ha] at hel
  simp only [Bool.not_true, Bool.false_or, Bool.and_eq_true] at hel
  exact lt_of_hasTimedout _ _ _ h0 hel.2

theorem handedSince_mapSet_done (T k : Int) (m : GoMap) (k1 : Int) (t : Task)
    (ht : t.done = true) (h : HandedSince T k m) : HandedSince T k (mapSet m k1 t) := by
  intro task hl hd
  rw [mapLookup_mapSet] at hl
  by_cases hk : k1 = k
  · rw [if_pos hk] at hl
    rw [← Option.some.inj hl, ht] at hd
    cases hd
  · rw [if_neg hk] at hl
    exact h task hl hd

theorem handedSince_mapSet_stamped (T k : Int) (m : GoMap) (timeout now : Int)
    (e : Int × Task) (hW : WellKeyed m) (he : e ∈ m) (h0 : 0 ≤ timeout)
    (hel : eligible timeout now e.2 = true) (h : HandedSince T k m) :
    HandedSince T k (mapSet m e.2.id (stamped now e.2)) := by
  intro task hl hd
  rw [mapLookup_mapSet] at hl
  by_cases hk : e.2.id = k
  · rw [if_pos hk] at hl
    have hnd := eligible_not_done _ _ _ hel
    have hkey : e.1 = k := (hW.2 e he hnd).trans hk
    have hlook := mapLookup_of_mem m hW.1 e he
    rw [hkey] at hlook
    obtain ⟨ha, hT⟩ := h e.2 hlook hnd
    have hlt := lt_of_eligible_assigned timeout now e.2
      (by unfold minDuration; omega) hel ha
    rw [← Option.some.inj hl]
    refine ⟨rfl, ?_⟩
    show T ≤ now
    omega
  · rw [if_neg hk] at hl
    exact h task hl hd

theorem handedSince_step (T k : Int) (c : Coordinator) (op : Op)
    (hWM : WellKeyed c.mapTasks) (hWR : WellKeyed c.reduceTasks) (h0 : 0 ≤ c.timeout) :
    (HandedSince T k c.mapTasks → HandedSince T k (step c op).mapTasks) ∧
      (HandedSince T k c.reduceTasks → HandedSince T k (step c op).reduceTasks) := by
  cases op with
  | getTask now ordM ordR =>
    show (HandedSince T k c.mapTasks → HandedSince T k (GetTask c now ordM ordR).1.mapTasks) ∧
      (HandedSince T k c.reduceTasks →
        HandedSince T k (GetTask c now ordM ordR).1.reduceTasks)
    rcases GetTask_cases c now ordM ordR with
      ⟨e, he, hel, h⟩ | ⟨_, _, h⟩ | ⟨_, e, he, hel, h⟩ | ⟨_, _, _, h⟩ | ⟨_, _, h⟩
    · rw [h]
      exact ⟨handedSince_mapSet_stamped T k _ _ now e hWM he h0 hel, id⟩
    · rw [h]; exact ⟨id, id⟩
    · rw [h]
      exact ⟨id, handedSince_mapSet_stamped T k _ _ now e hWR he h0 hel⟩
    · rw [h]; exact ⟨id, id⟩
    · rw [h]; exact ⟨id, id⟩
  | setTaskDone args =>
    show (HandedSince T k c.mapTasks → HandedSince T k (SetTaskDone c args).1.mapTasks) ∧
      (HandedSince T k c.reduceTasks → HandedSince T k (SetTaskDone c args).1.reduceTasks)
    unfold SetTaskDone
    split_ifs
    · exact ⟨handedSince_mapSet_done T k _ _ _ rfl, id⟩
    · exact ⟨id, handedSince_mapSet_done T k _ _ _ rfl⟩
    · exact ⟨id, id⟩
  | done => exact ⟨id, id⟩

theorem handedSince_run (T k : Int) (ops : List Op) :
    ∀ c : Coordinator, WellKeyed c.mapTasks → WellKeyed c.reduceTasks → 0 ≤ c.timeout →
      (HandedSince T k c.mapTasks → HandedSince T k (run c ops).mapTasks) ∧
        (HandedSince T k c.reduceTasks → HandedSince T k (run c ops).reduceTasks) := by
  induction ops with
  | nil => intro c _ _ _; exact ⟨id, id⟩
  | cons op rest ih =>
    intro c hWM hWR h0
    obtain ⟨w1, w2⟩ := wellKeyed_step c op hWM hWR
    obtain ⟨s1, s2⟩ := handedSince_step T k c op hWM hWR h0
    obtain ⟨r1, r2⟩ := ih (step c op) w1 w2 (by rw [(step_fields c op).1]; exact h0)
    exact ⟨fun h => r1 (s1 h), fun h => r2 (s2 h)⟩

/-- The table right after the task of the entry `e` was handed out at `T`. -/
theorem handedSince_stamped (T : Int) (m : GoMap) (e : Int × Task) :
    HandedSince T e.2.id (mapSet m e.2.id (stamped T e.2)) := by
  intro task hl _
  rw [mapLookup_mapSet, if_pos rfl] at hl
  rw [← Option.some.inj hl]
  exact ⟨rfl, le_refl _⟩

/-- A task handed out from a well keyed table: the entry, its key and what
its state was. -/
theorem handed_out_entry (T k : Int) (m : GoMap) (timeout now : Int) (e : Int × Task)
    (hW : WellKeyed m) (he : e ∈ m) (hel : eligible timeout now e.2 = true)
    (h0 : 0 ≤ timeout) (hk : e.2.id = k) (h : HandedSince T k m) :
    timeout < now - T := by
  have hnd := eligible_not_done _ _ _ hel
  have hkey : e.1 = k := (hW.2 e he hnd).trans hk
  have hlook := mapLookup_of_mem m hW.1 e he
  rw [hkey] at hlook
  obtain ⟨ha, hT⟩ := h e.2 hlook hnd
  have hlt := lt_of_eligible_assigned timeout now e.2 (by unfold minDuration; omega) hel ha
  omega

/-- What a hand-out says about the entry handed out. -/
theorem handed_out_state (c : Coordinator) (t : Int) (ordM ordR : List Nat)
    (hWM : WellKeyed c.mapTasks) (hWR : WellKeyed c.reduceTasks)
    (hto : c.timeout = 10 * Second) :
    ((GetTask c t ordM ordR).2.Command = MAP →
        ∃ e ∈ c.mapTasks, e.1 = (GetTask c t ordM ordR).2.TaskId ∧ e.2.done = false ∧
          (e.2.assigned = true → 10 * Second < t - e.2.startedAt)) ∧
      ((GetTask c t ordM ordR).2.Command = REDUCE →
        ∃ e ∈ c.reduceTasks, e.1 = (GetTask c t ordM ordR).2.TaskId ∧ e.2.done = false ∧
          (e.2.assigned = true → 10 * Second < t - e.2.startedAt)) := by
  obtain ⟨n1, n2, n3, n4, n5, n6⟩ := cmd_ne
  have hmin : minDuration ≤ 10 * Second := by decide
  refine ⟨fun hc => ?_, fun hc => ?_⟩
  · rcases GetTask_cases c t ordM ordR with
      ⟨e, he, hel, hg⟩ | ⟨_, _, hg⟩ | ⟨_, e, _, _, hg⟩ | ⟨_, _, _, hg⟩ | ⟨_, _, hg⟩
    · have hnd := eligible_not_done _ _ _ hel
      refine ⟨e, he, ?_, hnd, fun ha => ?_⟩
      · rw [hg]; exact hWM.2 e he hnd
      · rw [hto] at hel
        exact lt_of_eligible_assigned _ t e.2 hmin hel ha
    · rw [hg] at hc; exact absurd hc.symm n2
    · rw [hg] at hc; exact absurd hc.symm n1
    · rw [hg] at hc; exact absurd hc.symm n2
    · rw [hg] at hc; exact absurd hc.symm n3
  · rcases GetTask_cases c t ordM ordR with
      ⟨e, _, _, hg⟩ | ⟨_, _, hg⟩ | ⟨_, e, he, hel, hg⟩ | ⟨_, _, _, hg⟩ | ⟨_, _, hg⟩
    · rw [hg] at hc; exact absurd hc n1
    · rw [hg] at hc; exact absurd hc.symm n4
    · have hnd := eligible_not_done _ _ _ hel
      refine ⟨e, he, ?_, hnd, fun ha => ?_⟩
      · rw [hg]; exact hWR.2 e he hnd
      · rw [hto] at hel
        exact lt_of_eligible_assigned _ t e.2 hmin hel ha
    · rw [hg] at hc; exact absurd hc.symm n4
    · rw [hg] at hc; exact absurd hc.symm n5

/-- Two hand-outs of the same task are more than the timeout apart. -/
theorem handed_out_twice (c : Coordinator) (T : Int) (ordM1 ordR1 : List Nat)
    (ops2 : List Op) (t : Int) (ordM2 ordR2 : List Nat)
    (hWM : WellKeyed c.mapTasks) (hWR : WellKeyed c.reduceTasks)
    (hto : c.timeout = 10 * Second) (cmd : Cmd) (hcmd : cmd = MAP ∨ cmd = REDUCE)
    (hc1 : (GetTask c T ordM1 ordR1).2.Command = cmd)
    (hc2 : (GetTask (run (GetTask c T ordM1 ordR1).1 ops2) t ordM2 ordR2).2.Command = cmd)
    (hid : (GetTask c T ordM1 ordR1).2.TaskId =
      (GetTask (run (GetTask c T ordM1 ordR1).1 ops2) t ordM2 ordR2).2.TaskId) :
    10 * Second < t - T := by
  obtain ⟨n1, n2, n3, n4, n5, n6⟩ := cmd_ne
  have hpos : (0 : Int) ≤ 10 * Second := by decide
  obtain ⟨hWMa, hWRa⟩ := wellKeyed_GetTask c T ordM1 ordR1 hWM hWR
  have htoa : (GetTask c T ordM1 ordR1).1.timeout = 10 * Second :=
    (GetTask_fields c T ordM1 ordR1).1.trans hto
  obtain ⟨hWM2, hWR2⟩ := wellKeyed_run ops2 _ hWMa hWRa
  have hto2 : (run (GetTask c T ordM1 ordR1).1 ops2).timeout = 10 * Second :=
    (run_fields ops2 _).1.trans htoa
  obtain ⟨rM, rR⟩ := handedSince_run T (GetTask c T ordM1 ordR1).2.TaskId ops2
    (GetTask c T ordM1 ordR1).1 hWMa hWRa (by rw [htoa]; exact hpos)
  have hstart : (cmd = MAP → HandedSince T (GetTask c T ordM1 ordR1).2.TaskId
        (GetTask c T ordM1 ordR1).1.mapTasks) ∧
      (cmd = REDUCE → HandedSince T (GetTask c T ordM1 ordR1).2.TaskId
        (GetTask c T ordM1 ordR1).1.reduceTasks) := by
    rcases GetTask_cases c T ordM1 ordR1 with
      ⟨e1, _, _, hg1⟩ | ⟨_, _, hg1⟩ | ⟨_, e1, _, _, hg1⟩ | ⟨_, _, _, hg1⟩ | ⟨_, _, hg1⟩
    · rw [hg1] at hc1 ⊢
      refine ⟨fun _ => handedSince_stamped T _ e1, fun h => ?_⟩
      rw [h] at hc1
      exact absurd hc1 n1
    · rw [hg1] at hc1
      rcases hcmd with rfl | rfl
      · exact absurd hc1.symm n2
      · exact absurd hc1.symm n4
    · rw [hg1] at hc1 ⊢
      refine ⟨fun h => ?_, fun _ => handedSince_stamped T _ e1⟩
      rw [h] at hc1
      exact absurd hc1.symm n1
    · rw [hg1] at hc1
      rcases hcmd with rfl | rfl
      · exact absurd hc1.symm n2
      · exact absurd hc1.symm n4
    · rw [hg1] at hc1
      rcases hcmd with rfl | rfl
      · exact absurd hc1.symm n3
      · exact absurd hc1.symm n5
  rcases GetTask_cases (run (GetTask c T ordM1 ordR1).1 ops2) t ordM2 ordR2 with
    ⟨e, he, hel, hg⟩ | ⟨_, _, hg⟩ | ⟨_, e, he, hel, hg⟩ | ⟨_, _, _, hg⟩ | ⟨_, _, hg⟩
  · rw [hg] at hc2 hid
    have hcm : cmd = MAP := hc2.symm
    rw [hto2] at hel
    exact handed_out_entry T _ _ _ t e hWM2 he hel hpos hid.symm (rM (hstart.1 hcm))
  · rw [hg] at hc2
    rcases hcmd with rfl | rfl
    · exact absurd hc2.symm n2
    · exact absurd hc2.symm n4
  · rw [hg] at hc2 hid
    have hcm : cmd = REDUCE := hc2.symm
    rw [hto2] at hel
    exact handed_out_entry T _ _ _ t e hWR2 he hel hpos hid.symm (rR (hstart.2 hcm))
  · rw [hg] at hc2
    rcases hcmd with rfl | rfl
    · exact absurd hc2.symm n2
    · exact absurd hc2.symm n4
  · rw [hg] at hc2
    rcases hcmd with rfl | rfl
    · exact absurd hc2.symm n3
    · exact absurd hc2.symm n5

/-- C17. No early reassignment: let a `GetTask` at time T be made in a
reachable state, then any calls, then a `GetTask` at time t.  The task the
second call hands out is not done, and if it was assigned, more than the
timeout of 10 s has passed since its last assignment; and if both calls hand
out the same Map task, or the same Reduce task, then t - T is more than the
timeout, so that task is not handed out again at any t with
t - T ≤ timeout. -/
theorem no_early_reassignment (files : List String) (nReduce : Int) (ops1 : List Op)
    (T : Int) (ordM1 ordR1 : List Nat) (ops2 : List Op) (t : Int) (ordM2 ordR2 : List Nat) :
    ((GetTask (run (GetTask (reached files nReduce ops1) T ordM1 ordR1).1 ops2)
          t ordM2 ordR2).2.Command = MAP →
        ∃ e ∈ (run (GetTask (reached files nReduce ops1) T ordM1 ordR1).1 ops2).mapTasks,
          e.1 = (GetTask (run (GetTask (reached files nReduce ops1) T ordM1 ordR1).1 ops2)
            t ordM2 ordR2).2.TaskId ∧
          e.2.done = false ∧ (e.2.assigned = true → 10 * Second < t - e.2.startedAt)) ∧
      ((GetTask (run (GetTask (reached files nReduce ops1) T ordM1 ordR1).1 ops2)
          t ordM2 ordR2).2.Command = REDUCE →
        ∃ e ∈ (run (GetTask (reached files nReduce ops1) T ordM1 ordR1).1 ops2).reduceTasks,
          e.1 = (GetTask (run (GetTask (reached files nReduce ops1) T ordM1 ordR1).1 ops2)
            t ordM2 ordR2).2.TaskId ∧
          e.2.done = false ∧ (e.2.assigned = true → 10 * Second < t - e.2.startedAt)) ∧
      (∀ cmd, cmd = MAP ∨ cmd = REDUCE →
        (GetTask (reached files nReduce ops1) T ordM1 ordR1).2.Command = cmd →
        (GetTask (run (GetTask (reached files nReduce ops1) T ordM1 ordR1).1 ops2)
          t ordM2 ordR2).2.Command = cmd →
        (GetTask (reached files nReduce ops1) T ordM1 ordR1).2.TaskId =
          (GetTask (run (GetTask (reached files nReduce ops1) T ordM1 ordR1).1 ops2)
            t ordM2 ordR2).2.TaskId →
        10 * Second < t - T) := by
  obtain ⟨hWM1, hWR1⟩ := wellKeyed_reachable files nReduce ops1
  have hto1 : (reached files nReduce ops1).timeout = 10 * Second :=
    timeout_reachable files nReduce ops1
  obtain ⟨hWMa, hWRa⟩ := wellKeyed_GetTask (reached files nReduce ops1) T ordM1 ordR1 hWM1 hWR1
  have htoa : (GetTask (reached files nReduce ops1) T ordM1 ordR1).1.timeout = 10 * Second :=
    (GetTask_fields _ T ordM1 ordR1).1.trans hto1
  obtain ⟨hWM2, hWR2⟩ := wellKeyed_run ops2 _ hWMa hWRa
  have hto2 : (run (GetTask (reached files nReduce ops1) T ordM1 ordR1).1 ops2).timeout =
      10 * Second := (run_fields ops2 _).1.trans htoa
  obtain ⟨s1, s2⟩ := handed_out_state _ t ordM2 ordR2 hWM2 hWR2 hto2
  exact ⟨s1, s2, fun cmd hcmd hc1 hc2 hid =>
    handed_out_twice (reached files nReduce ops1) T ordM1 ordR1 ops2 t ordM2 ordR2
      hWM1 hWR1 hto1 cmd hcmd hc1 hc2 hid⟩

/-- C17 on one file: the Map task handed out at time 0 and again at time
10 s + 1 ns. -/
theorem no_early_reassignment_witness :
    (GetTask (reached ["a.txt"] 1 []) 0 [] []).2.Command = MAP ∧
      (GetTask (run (GetTask (reached ["a.txt"] 1 []) 0 [] []).1 [Op.done])
        10000000001 [] []).2.Command = MAP ∧
      (GetTask (reached ["a.txt"] 1 []) 0 [] []).2.TaskId =
        (GetTask (run (GetTask (reached ["a.txt"] 1 []) 0 [] []).1 [Op.done])
          10000000001 [] []).2.TaskId ∧
      10 * Second < (10000000001 : Int) - 0 :=
  ⟨by decide, by decide, by decide,
    (no_early_reassignment ["a.txt"] 1 [] 0 [] [] [Op.done] 10000000001 [] []).2.2 MAP
      (Or.inl rfl) (by decide) (by decide) (by decide)⟩

/-- C18. Key/id consistency: in every state reachable from `MakeCoordinator` by
any sequence of calls (SetTaskDone with ids that name no task included), every
task of the Map or Reduce table that is not done is stored under the key equal
to its id; so when `GetTask` hands out a task, the write-back under `task.id`
replaces the very entry that was selected, no entry is added, every other
entry is as before, and the TaskId of the reply is the key of the entry that
was marked assigned. -/
theorem key_id_consistency (files : List String) (nReduce : Int) (ops : List Op)
    (now : Int) (ordM ordR : List Nat) :
    (∀ e ∈ (reached files nReduce ops).mapTasks, e.2.done = false → e.1 = e.2.id) ∧
      (∀ e ∈ (reached files nReduce ops).reduceTasks, e.2.done = false → e.1 = e.2.id) ∧
      ((GetTask (reached files nReduce ops) now ordM ordR).2.Command = MAP →
        ∃ e ∈ (reached files nReduce ops).mapTasks,
          eligible (reached files nReduce ops).timeout now e.2 = true ∧
          (GetTask (reached files nReduce ops) now ordM ordR).2.TaskId = e.1 ∧
          mapLookup (GetTask (reached files nReduce ops) now ordM ordR).1.mapTasks e.1 =
            some { e.2 with assigned := true, startedAt := now } ∧
          mapKeys (GetTask (reached files nReduce ops) now ordM ordR).1.mapTasks =
            mapKeys (reached files nReduce ops).mapTasks ∧
          ∀ k, k ≠ e.1 →
            mapLookup (GetTask (reached files nReduce ops) now ordM ordR).1.mapTasks k =
              mapLookup (reached files nReduce ops).mapTasks k) ∧
      ((GetTask (reached files nReduce ops) now ordM ordR).2.Command = REDUCE →
        ∃ e ∈ (reached files nReduce ops).reduceTasks,
          eligible (reached files nReduce ops).timeout now e.2 = true ∧
          (GetTask (reached files nReduce ops) now ordM ordR).2.TaskId = e.1 ∧
          mapLookup (GetTask (reached files nReduce ops) now ordM ordR).1.reduceTasks e.1 =
            some { e.2 with assigned := true, startedAt := now } ∧
          mapKeys (GetTask (reached files nReduce ops) now ordM ordR).1.reduceTasks =
            mapKeys (reached files nReduce ops).reduceTasks ∧
          ∀ k, k ≠ e.1 →
            mapLookup (GetTask (reached files nReduce ops) now ordM ordR).1.reduceTasks k =
              mapLookup (reached files nReduce ops).reduceTasks k) := by
  obtain ⟨h1, h2, h3, h4, h5, h6⟩ := cmd_ne
  obtain ⟨hWM, hWR⟩ := wellKeyed_reachable files nReduce ops
  have hwrite : ∀ (m : GoMap) (e : Int × Task), WellKeyed m → e ∈ m →
      e.2.done = false →
      mapLookup (mapSet m e.2.id (stamped now e.2)) e.1 =
          some { e.2 with assigned := true, startedAt := now } ∧
        mapKeys (mapSet m e.2.id (stamped now e.2)) = mapKeys m ∧
        ∀ k, k ≠ e.1 → mapLookup (mapSet m e.2.id (stamped now e.2)) k = mapLookup m k := by
    intro m e hW he hd
    have hk : e.1 = e.2.id := hW.2 e he hd
    refine ⟨?_, ?_, fun k hne => ?_⟩
    · rw [mapLookup_mapSet, if_pos hk.symm]
      rfl
    · exact mapKeys_mapSet_of_mem m _ _ (hk ▸ List.mem_map_of_mem Prod.fst he)
    · rw [mapLookup_mapSet, if_neg]
      intro hk1
      exact hne (hk1.symm.trans hk.symm)
  refine ⟨hWM.2, hWR.2, fun hc => ?_, fun hc => ?_⟩
  · rcases GetTask_cases (reached files nReduce ops) now ordM ordR with
      ⟨e, he, hel, hg⟩ | ⟨_, _, hg⟩ | ⟨_, e, _, _, hg⟩ | ⟨_, _, _, hg⟩ | ⟨_, _, hg⟩
    · have hd := eligible_not_done _ _ _ hel
      obtain ⟨w1, w2, w3⟩ := hwrite _ e hWM he hd
      refine ⟨e, he, hel, ?_, ?_, ?_, ?_⟩
      · rw [hg]; exact (hWM.2 e he hd).symm
      · rw [hg]; exact w1
      · rw [hg]; exact w2
      · rw [hg]; exact w3
    · rw [hg] at hc; exact absurd hc.symm h2
    · rw [hg] at hc; exact absurd hc.symm h1
    · rw [hg] at hc; exact absurd hc.symm h2
    · rw [hg] at hc; exact absurd hc.symm h3
  · rcases GetTask_cases (reached files nReduce ops) now ordM ordR with
      ⟨e, _, _, hg⟩ | ⟨_, _, hg⟩ | ⟨_, e, he, hel, hg⟩ | ⟨_, _, _, hg⟩ | ⟨_, _, hg⟩
    · rw [hg] at hc; exact absurd hc h1
    · rw [hg] at hc; exact absurd hc.symm h4
    · have hd := eligible_not_done _ _ _ hel
      obtain ⟨w1, w2, w3⟩ := hwrite _ e hWR he hd
      refine ⟨e, he, hel, ?_, ?_, ?_, ?_⟩
      · rw [hg]; exact (hWR.2 e he hd).symm
      · rw [hg]; exact w1
      · rw [hg]; exact w2
      · rw [hg]; exact w3
    · rw [hg] at hc; exact absurd hc.symm h4
    · rw [hg] at hc; exact absurd hc.symm h5

/-- C18 after a report for the id 7, which names no task: the table holds a
done task with id 0 under key 7, and the next `GetTask` hands out the task
under key 0. -/
theorem key_id_consistency_witness :
    (reached ["a.txt"] 1 [Op.setTaskDone ⟨MAP, 7⟩]).mapTasks =
        [(0, { id := 0, filenames := ["a.txt"], done := false, assigned := false,
               startedAt := 0 }),
         (7, { id := 0, filenames := [], done := true, assigned := false,
               startedAt := 0 })] ∧
      (GetTask (reached ["a.txt"] 1 [Op.setTaskDone ⟨MAP, 7⟩]) 5 [1] []).2.Command = MAP ∧
      ∃ e ∈ (reached ["a.txt"] 1 [Op.setTaskDone ⟨MAP, 7⟩]).mapTasks,
        (GetTask (reached ["a.txt"] 1 [Op.setTaskDone ⟨MAP, 7⟩]) 5 [1] []).2.TaskId = e.1 ∧
        mapLookup (GetTask (reached ["a.txt"] 1 [Op.setTaskDone ⟨MAP, 7⟩]) 5 [1] []).1.mapTasks
            e.1 = some { e.2 with assigned := true, startedAt := 5 } :=
  ⟨by decide, by decide, by
    obtain ⟨e, he, _, hid, hw, _⟩ :=
      (key_id_consistency ["a.txt"] 1 [Op.setTaskDone ⟨MAP, 7⟩] 5 [1] []).2.2.1 (by decide)
    exact ⟨e, he, hid, hw⟩⟩

/-! ## Lemmas and theorems: the worker on the file system -/

theorem reduceLoop_keys_sublist (reducef : String → List String → String) (fuel : Nat) :
    ∀ l : List KeyValue,
      ((reduceLoop reducef fuel l).map ReduceCall.key).Sublist (l.map KeyValue.Key) := by
  induction fuel with
  | zero => intro l; simp [reduceLoop]
  | succ fuel ih =>
    intro l
    cases l with
    | nil => simp [reduceLoop]
    | cons kv rest =>
      simp only [reduceLoop, List.map_cons]
      exact List.Sublist.cons₂ _
        ((ih _).trans ((List.dropWhile_sublist _).map KeyValue.Key))

theorem length_appendAt (split : List (List KeyValue)) (idx : Nat) (kv : KeyValue) :
    (appendAt split idx kv).length = split.length := by
  induction split generalizing idx with
  | nil => rfl
  | cons b bs ih =>
    cases idx with
    | zero => rfl
    | succ idx => simp [appendAt, ih]

theorem get?_appendAt (split : List (List KeyValue)) (idx : Nat) (kv : KeyValue) (i : Nat) :
    (appendAt split idx kv).get? i =
      if i = idx then (split.get? i).map fun b => b ++ [kv] else split.get? i := by
  induction split generalizing idx i with
  | nil => simp [appendAt]
  | cons b bs ih =>
    cases idx with
    | zero =>
      cases i with
      | zero => simp [appendAt]
      | succ i => simp [appendAt]
    | succ idx =>
      cases i with
      | zero => simp [appendAt]
      | succ i => simpa [appendAt] using ih idx i

theorem flatten_appendAt_perm (split : List (List KeyValue)) (idx : Nat) (kv : KeyValue)
    (h : idx < split.length) : (appendAt split idx kv).flatten.Perm (split.flatten ++ [kv]) := by
  induction split generalizing idx with
  | nil => simp at h
  | cons b bs ih =>
    cases idx with
    | zero =>
      simp only [appendAt, List.flatten_cons, List.append_assoc]
      exact List.Perm.append_left b List.perm_append_comm
    | succ idx =>
      simp only [appendAt, List.flatten_cons, List.append_assoc]
      exact List.Perm.append_left b (ih idx (by simpa using h))

theorem ihash_nonneg (key : String) : 0 ≤ ihash key := by
  unfold ihash
  exact Int.ofNat_nonneg _

theorem ihash_lt (key : String) : ihash key < 2 ^ 31 := by
  unfold ihash
  have h : fnv32a (stringBytes key) &&& 0x7fffffff < 2 ^ 31 :=
    Nat.and_lt_two_pow _ (by decide)
  exact_mod_cast h

theorem tmod_ihash_range (key : String) (nreduce : Int) (h : 1 ≤ nreduce) :
    0 ≤ (ihash key).tmod nreduce ∧ (ihash key).tmod nreduce < nreduce := by
  rw [Int.tmod_eq_emod (ihash_nonneg key) (by omega)]
  exact ⟨Int.emod_nonneg _ (by omega), Int.emod_lt_of_pos _ (by omega)⟩

theorem partitionLoop_spec (nreduce : Int) (h : 1 ≤ nreduce) (rest : List KeyValue) :
    ∀ split : List (List KeyValue), split.length = nreduce.toNat →
      ∃ split1, partitionLoop nreduce split rest = Except.ok split1 ∧
        split1.length = nreduce.toNat ∧
        (∀ i : Nat, split1.get? i = (split.get? i).map fun b =>
          b ++ rest.filter fun kv => (ihash kv.Key).tmod nreduce = i) ∧
        split1.flatten.Perm (split.flatten ++ rest) := by
  induction rest with
  | nil =>
    intro split hlen
    exact ⟨split, rfl, hlen, fun i => by cases split.get? i <;> simp, by simp⟩
  | cons kv rest ih =>
    intro split hlen
    obtain ⟨h0, hlt⟩ := tmod_ihash_range kv.Key nreduce h
    have hidx : ((ihash kv.Key).tmod nreduce).toNat < split.length := by
      rw [hlen]; omega
    obtain ⟨split1, heq, hlen1, hget, hperm⟩ :=
      ih (appendAt split ((ihash kv.Key).tmod nreduce).toNat kv)
        ((length_appendAt _ _ _).trans hlen)
    refine ⟨split1, ?_, hlen1, fun i => ?_, ?_⟩
    · unfold partitionLoop
      rw [if_neg (by omega)]
      simp only []
      rw [if_pos ⟨h0, hidx⟩]
      exact heq
    · rw [hget i, get?_appendAt]
      by_cases hi : i = ((ihash kv.Key).tmod nreduce).toNat
      · have hi1 : (ihash kv.Key).tmod nreduce = (i : Int) := by omega
        rw [if_pos hi]
        cases split.get? i <;> simp [List.filter_cons, hi1]
      · have hi1 : ¬ (ihash kv.Key).tmod nreduce = (i : Int) := by omega
        rw [if_neg hi]
        cases split.get? i <;> simp [List.filter_cons, hi1]
    · refine hperm.trans ?_
      refine ((flatten_appendAt_perm split _ kv hidx).append_right rest).trans ?_
      simp

theorem partition_spec (nreduce : Int) (h : 1 ≤ nreduce) (intermediate : List KeyValue) :
    ∃ split, partition nreduce intermediate = Except.ok split ∧
      split.length = nreduce.toNat ∧
      (∀ i : Nat, i < nreduce.toNat → split.get? i =
        some (intermediate.filter fun kv => (ihash kv.Key).tmod nreduce = i)) ∧
      split.flatten.Perm intermediate := by
  obtain ⟨split, heq, hlen, hget, hperm⟩ :=
    partitionLoop_spec nreduce h intermediate (List.replicate nreduce.toNat [])
      (List.length_replicate _ _)
  refine ⟨split, ?_, hlen, fun i hi => ?_, ?_⟩
  · unfold partition
    rw [if_neg (by omega)]
    exact heq
  · rw [hget i]
    have : (List.replicate nreduce.toNat ([] : List KeyValue)).get? i = some [] := by
      rw [List.get?_eq_getElem?, List.getElem?_replicate]
      simp [hi]
    rw [this]
    simp
  · have hj : (List.replicate nreduce.toNat ([] : List KeyValue)).flatten = [] := by
      simp
    rw [hj] at hperm
    simpa using hperm

/-- C12. Partition correctness: for every list of records and every
nReduce ≥ 1 the partition step of `doMapTask` succeeds with nReduce buckets;
bucket i holds exactly the records whose key has `ihash(key) % nReduce = i`, in
their original relative order; the buckets together are a permutation of the
records; and two records with the same key are in the same bucket. -/
theorem partition_correct (nReduce : Int) (h : 1 ≤ nReduce) (intermediate : List KeyValue) :
    ∃ split, partition nReduce intermediate = Except.ok split ∧
      split.length = nReduce.toNat ∧
      (∀ i : Nat, i < nReduce.toNat → split.get? i =
        some (intermediate.filter fun kv => (ihash kv.Key).tmod nReduce = i)) ∧
      split.flatten.Perm intermediate ∧
      (∀ (i j : Nat) (bi bj : List KeyValue) (a b : KeyValue),
        split.get? i = some bi → split.get? j = some bj → a ∈ bi → b ∈ bj →
        a.Key = b.Key → i = j) := by
  obtain ⟨split, heq, hlen, hget, hperm⟩ := partition_spec nReduce h intermediate
  refine ⟨split, heq, hlen, hget, hperm, ?_⟩
  intro i j bi bj a b hi hj ha hb hkey
  have hilt : i < nReduce.toNat := by
    by_contra hge
    rw [List.get?_eq_none.2 (by omega)] at hi
    cases hi
  have hjlt : j < nReduce.toNat := by
    by_contra hge
    rw [List.get?_eq_none.2 (by omega)] at hj
    cases hj
  rw [hget i hilt] at hi
  rw [hget j hjlt] at hj
  rw [← Option.some.inj hi] at ha
  rw [← Option.some.inj hj] at hb
  have h1 := (List.mem_filter.1 ha).2
  have h2 := (List.mem_filter.1 hb).2
  simp only [decide_eq_true_eq] at h1 h2
  rw [hkey] at h1
  omega

/-- C12 on the records of the text `x y x` and two buckets. -/
theorem partition_correct_witness :
    (1 : Int) ≤ 2 ∧
      partition 2 [⟨"x", "1"⟩, ⟨"y", "1"⟩, ⟨"x", "1"⟩] =
        Except.ok [[⟨"y", "1"⟩], [⟨"x", "1"⟩, ⟨"x", "1"⟩]] ∧
      ∃ split, partition 2 [⟨"x", "1"⟩, ⟨"y", "1"⟩, ⟨"x", "1"⟩] = Except.ok split ∧
        split.flatten.Perm [⟨"x", "1"⟩, ⟨"y", "1"⟩, ⟨"x", "1"⟩] :=
  ⟨by decide, by rfl, by
    obtain ⟨split, heq, _, _, hperm, _⟩ :=
      partition_correct 2 (by decide) [⟨"x", "1"⟩, ⟨"y", "1"⟩, ⟨"x", "1"⟩]
    exact ⟨split, heq, hperm⟩⟩

/-- C13. Partition range: for every key and every nReduce ≥ 1, `ihash(key)` is
the 32-bit FNV-1a hash of the bytes of the key with the top bit cleared and
lies in [0, 2^31); `ihash(key) % nReduce` lies in [0, nReduce) (the remainder
of Go and the Euclidean remainder agree here) and is an index within the
nReduce-element bucket slice. -/
theorem ihash_partition_range (key : String) (nReduce : Int) (h : 1 ≤ nReduce) :
    ihash key = ((fnv32a (stringBytes key) % 2 ^ 31 : Nat) : Int) ∧
      0 ≤ ihash key ∧ ihash key < 2 ^ 31 ∧
      0 ≤ (ihash key).tmod nReduce ∧ (ihash key).tmod nReduce < nReduce ∧
      (ihash key).tmod nReduce = ihash key % nReduce ∧
      ((ihash key).tmod nReduce).toNat <
        (List.replicate nReduce.toNat ([] : List KeyValue)).length := by
  obtain ⟨h0, hlt⟩ := tmod_ihash_range key nReduce h
  refine ⟨?_, ihash_nonneg key, ihash_lt key, h0, hlt,
    Int.tmod_eq_emod (ihash_nonneg key) (by omega), ?_⟩
  · unfold ihash
    have : (0x7fffffff : Nat) = 2 ^ 31 - 1 := by decide
    rw [this, Nat.and_pow_two_sub_one_eq_mod]
  · rw [List.length_replicate]
    omega

/-- C13 at the key `a`, whose FNV-1a hash is 0xe40c292c, and ten buckets. -/
theorem ihash_partition_range_witness :
    (1 : Int) ≤ 10 ∧ ihash "a" = 1678518572 ∧ (ihash "a").tmod 10 = 2 ∧
      0 ≤ (ihash "a").tmod 10 ∧ (ihash "a").tmod 10 < 10 :=
  ⟨by decide, by decide, by decide,
    (ihash_partition_range "a" 10 (by decide)).2.2.2.1,
    (ihash_partition_range "a" 10 (by decide)).2.2.2.2.1⟩

theorem fsRead_fsWrite (fs : FS) (name content name1 : String) :
    fsRead (fsWrite fs name content) name1 =
      if name = name1 then some content else fsRead fs name1 := by
  induction fs with
  | nil => simp [fsWrite, fsRead]
  | cons e rest ih =>
    obtain ⟨n, c⟩ := e
    by_cases h0 : n = name
    · subst h0
      by_cases h1 : n = name1 <;> simp [fsWrite, fsRead, h1]
    · by_cases h1 : n = name1
      · subst h1
        have : ¬ name = n := fun h => h0 h.symm
        simp [fsWrite, fsRead, h0, this]
      · simp [fsWrite, fsRead, h0, h1, ih]

theorem digitChar_toNat (d : Nat) (h : d < 10) : (Nat.digitChar d).toNat - 48 = d := by
  interval_cases d <;> rfl

theorem toDigitsCore_spec (fuel : Nat) :
    ∀ (n : Nat) (ds : List Char), n < fuel →
      Nat.toDigitsCore 10 fuel n ds = Nat.toDigitsCore 10 fuel n [] ++ ds ∧
        (Nat.toDigitsCore 10 fuel n []).foldl (fun a c => 10 * a + (c.toNat - 48)) 0 = n := by
  induction fuel with
  | zero => intro n ds h; omega
  | succ fuel ih =>
    intro n ds h
    unfold Nat.toDigitsCore
    by_cases h0 : n / 10 = 0
    · simp only [h0, if_true]
      refine ⟨rfl, ?_⟩
      simp only [List.foldl_cons, List.foldl_nil]
      rw [digitChar_toNat _ (Nat.mod_lt _ (by decide))]
      omega
    · simp only [h0, if_false]
      have hlt : n / 10 < fuel := by omega
      obtain ⟨h1, h2⟩ := ih (n / 10) (Nat.digitChar (n % 10) :: ds) hlt
      obtain ⟨h3, _⟩ := ih (n / 10) [Nat.digitChar (n % 10)] hlt
      refine ⟨?_, ?_⟩
      · rw [h1, h3, List.append_assoc]
        rfl
      · rw [h3, List.foldl_append, h2]
        simp only [List.foldl_cons, List.foldl_nil]
        rw [digitChar_toNat _ (Nat.mod_lt _ (by decide))]
        omega

theorem toString_nat_injective (a b : Nat) (h : toString a = toString b) : a = b := by
  have h1 : Nat.toDigits 10 a = Nat.toDigits 10 b := by
    have := congrArg String.data h
    exact this
  have ha := (toDigitsCore_spec (a + 1) a [] (Nat.lt_succ_self a)).2
  have hb := (toDigitsCore_spec (b + 1) b [] (Nat.lt_succ_self b)).2
  unfold Nat.toDigits at h1
  rw [h1] at ha
  exact ha.symm.trans hb

/-- The names of the intermediate files of one Map task differ from bucket to
bucket. -/
theorem intermediateName_injective (taskId : Int) (a b : Nat)
    (h : intermediateName taskId a = intermediateName taskId b) : a = b := by
  unfold intermediateName at h
  have h1 := congrArg String.data h
  simp only [String.data_append, List.append_assoc] at h1
  have h2 := List.append_cancel_left (List.append_cancel_left (List.append_cancel_left h1))
  have h3 : toString ((a : Nat) : Int) = toString ((b : Nat) : Int) := String.ext h2
  exact toString_nat_injective a b h3

theorem fsRead_writeBuckets (enc : KeyValue → String) (taskId : Int)
    (buckets : List (List KeyValue)) :
    ∀ (i : Nat) (fs : FS),
      (∀ j bucket, buckets.get? j = some bucket →
        fsRead (writeBuckets enc taskId i buckets fs) (intermediateName taskId (i + j : Nat)) =
          some (encodeAll enc bucket)) ∧
      (∀ name, (∀ j, j < buckets.length → name ≠ intermediateName taskId (i + j : Nat)) →
        fsRead (writeBuckets enc taskId i buckets fs) name = fsRead fs name) := by
  induction buckets with
  | nil =>
    intro i fs
    exact ⟨fun j bucket h => by simp at h, fun name _ => rfl⟩
  | cons b rest ih =>
    intro i fs
    obtain ⟨ih1, ih2⟩ := ih (i + 1) (fsWrite fs (intermediateName taskId i) (encodeAll enc b))
    refine ⟨fun j bucket hj => ?_, fun name hname => ?_⟩
    · cases j with
      | zero =>
        simp only [List.get?_cons_zero, Option.some.injEq] at hj
        subst hj
        unfold writeBuckets
        rw [ih2]
        · simp [fsRead_fsWrite]
        · intro j _ heq
          have := intermediateName_injective taskId _ _ heq
          omega
      | succ j =>
        simp only [List.get?_cons_succ] at hj
        unfold writeBuckets
        have := ih1 j bucket hj
        rw [show i + 1 + j = i + (j + 1) by omega] at this
        exact this
    · unfold writeBuckets
      rw [ih2]
      · rw [fsRead_fsWrite, if_neg]
        intro heq
        exact hname 0 (by simp) (by simpa using heq.symm)
      · intro j hj heq
        refine hname (j + 1) (by simpa using hj) ?_
        rw [show i + (j + 1) = i + 1 + j by omega]
        exact heq

/-- C11. Reduce output order: for every list of intermediate records that
`doReduceTask` reads and every result of the sort, `doReduceTask` succeeds and
the content of the output file mr-out-taskId is the sequence of the lines
key, space, `reducef(key, values)`, newline of a list of groups (key, values)
with exactly one group per distinct key of the records, the keys strictly
increasing in the order of `ByKey.Less` and the values of a group a
permutation of the values of the records with its key; no other file is
changed. -/
theorem reduce_output_order (dec : String → List KeyValue)
    (sortByKey : List KeyValue → List KeyValue)
    (reducef : String → List String → String) (taskId nmap : Int) (fs : FS)
    (intermediate : List KeyValue)
    (hread : readIntermediate dec taskId fs [] 0 nmap.toNat = Except.ok intermediate)
    (hperm : (sortByKey intermediate).Perm intermediate)
    (hsorted : (sortByKey intermediate).Pairwise fun a b => Less b a = false) :
    ∃ (fs1 : FS) (groups : List (String × List String)),
      doReduceTask dec sortByKey reducef taskId nmap fs = Except.ok fs1 ∧
      fsRead fs1 (outputName taskId) =
        some (String.join
          (groups.map fun g => g.1 ++ " " ++ reducef g.1 g.2 ++ "\n")) ∧
      (groups.map Prod.fst).Nodup ∧
      (∀ k, k ∈ groups.map Prod.fst ↔ k ∈ intermediate.map KeyValue.Key) ∧
      ((groups.map Prod.fst).Pairwise fun a b => a.data < b.data) ∧
      (∀ g ∈ groups, g.2.Perm (valuesOf g.1 intermediate)) ∧
      (∀ name, name ≠ outputName taskId → fsRead fs1 name = fsRead fs name) := by
  have hs : (sortByKey intermediate).Pairwise fun a b => a.Key ≤ b.Key :=
    hsorted.imp fun {a b} h => (less_eq_false_iff a b).1 h
  obtain ⟨hnd, hmem, hval⟩ :=
    reduceLoop_spec reducef (sortByKey intermediate).length (sortByKey intermediate)
      (Nat.le_refl _) hs
  have hkeys : ((doReduceTaskFrom sortByKey reducef intermediate).map
      fun c => (c.key, c.values)).map Prod.fst =
      (doReduceTaskFrom sortByKey reducef intermediate).map ReduceCall.key := by
    rw [List.map_map]
    rfl
  have hlines : (doReduceTaskFrom sortByKey reducef intermediate).map ReduceCall.line =
      ((doReduceTaskFrom sortByKey reducef intermediate).map
        fun c => (c.key, c.values)).map
        fun g => g.1 ++ " " ++ reducef g.1 g.2 ++ "\n" := by
    rw [List.map_map]
    exact List.map_congr_left fun c hc => (hval c hc).2
  refine ⟨fsWrite fs (outputName taskId)
      (String.join ((doReduceTaskFrom sortByKey reducef intermediate).map ReduceCall.line)),
    (doReduceTaskFrom sortByKey reducef intermediate).map fun c => (c.key, c.values),
    ?_, ?_, ?_, ?_, ?_, ?_, ?_⟩
  · unfold doReduceTask
    rw [hread]
    rfl
  · rw [fsRead_fsWrite, if_pos rfl, hlines]
  · rw [hkeys]
    exact hnd
  · intro k
    rw [hkeys]
    exact (hmem k).trans (hperm.map KeyValue.Key).mem_iff
  · rw [hkeys]
    have hle : ((sortByKey intermediate).map KeyValue.Key).Pairwise fun a b => a ≤ b :=
      List.pairwise_map.2 hs
    have hsub := reduceLoop_keys_sublist reducef (sortByKey intermediate).length
      (sortByKey intermediate)
    refine ((hle.sublist hsub).and hnd).imp ?_
    intro a b hab
    exact String.lt_iff_toList_lt.1 (lt_of_le_of_ne hab.1 hab.2)
  · intro g hg
    obtain ⟨c, hc, rfl⟩ := List.mem_map.1 hg
    show c.values.Perm (valuesOf c.key intermediate)
    rw [(hval c hc).1]
    exact (hperm.filter _).map _
  · intro name hname
    rw [fsRead_fsWrite, if_neg fun h => hname h.symm]

/-- C11 on two intermediate files of the Reduce task 0, with the tagged codec,
the insertion sort and the count of the values: the output file holds the
lines of the keys a, x and y in this order. -/
theorem reduce_output_order_witness :
    readIntermediate tagDecode 0
        [("mr-0-0", "kxv1\nkyv2\n"), ("mr-1-0", "kxv3\nkav4\n")] [] 0 (Int.toNat 2) =
        Except.ok [⟨"x", "1"⟩, ⟨"y", "2"⟩, ⟨"x", "3"⟩, ⟨"a", "4"⟩] ∧
      doReduceTask tagDecode insertionSortByKey wcReduce 0 2
        [("mr-0-0", "kxv1\nkyv2\n"), ("mr-1-0", "kxv3\nkav4\n")] =
        Except.ok [("mr-0-0", "kxv1\nkyv2\n"), ("mr-1-0", "kxv3\nkav4\n"),
          ("mr-out-0", "a 1\nx 2\ny 1\n")] ∧
      ∃ (fs1 : FS) (groups : List (String × List String)),
        doReduceTask tagDecode insertionSortByKey wcReduce 0 2
          [("mr-0-0", "kxv1\nkyv2\n"), ("mr-1-0", "kxv3\nkav4\n")] = Except.ok fs1 ∧
        fsRead fs1 (outputName 0) =
          some (String.join (groups.map fun g => g.1 ++ " " ++ wcReduce g.1 g.2 ++ "\n")) ∧
        (groups.map Prod.fst).Pairwise fun a b => a.data < b.data :=
  ⟨by rfl, by rfl, by
    obtain ⟨fs1, groups, heq, hfile, _, _, hsorted, _⟩ :=
      reduce_output_order tagDecode insertionSortByKey wcReduce 0 2
        [("mr-0-0", "kxv1\nkyv2\n"), ("mr-1-0", "kxv3\nkav4\n")]
        [⟨"x", "1"⟩, ⟨"y", "2"⟩, ⟨"x", "3"⟩, ⟨"a", "4"⟩] (by rfl) (by decide) (by decide)
    exact ⟨fs1, groups, heq, hfile, hsorted⟩⟩

/-- C14 fails on an empty bucket: the Map task 0 on a file with the one word
`x` and two buckets has an empty bucket 0, and `doMapTask` creates the file
`mr-0-0`, which did not exist, with empty content. -/
theorem empty_bucket_file_created :
    fsRead [("a.txt", "x")] "mr-0-0" = none ∧
      partition 2 (wcMap "a.txt" "x") = Except.ok [[], [⟨"x", "1"⟩]] ∧
      doMapTask tagEncode wcMap 0 ["a.txt"] 2 [("a.txt", "x")] =
        Except.ok [("a.txt", "x"), ("mr-0-0", ""), ("mr-0-1", "kxv1\n")] :=
  ⟨by decide, by rfl, by rfl⟩

/-- C14, amended. Map output files: for a Map task with id t whose input files
can be read and every nReduce ≥ 1, `doMapTask` creates the intermediate file
named mr-t-i for every bucket index i in [0, nReduce), also when the bucket is
empty (the file is then empty); each of these files contains exactly the
encoded records of bucket i, in order; and no other file is changed. -/
theorem doMapTask_writes_every_bucket (enc : KeyValue → String)
    (mapf : String → String → List KeyValue) (taskId : Int) (filenames : List String)
    (nReduce : Int) (fs : FS) (intermediate : List KeyValue) (h : 1 ≤ nReduce)
    (hread : readInputs mapf fs [] filenames = Except.ok intermediate) :
    ∃ fs1, doMapTask enc mapf taskId filenames nReduce fs = Except.ok fs1 ∧
      (∀ i : Nat, (i : Int) < nReduce →
        fsRead fs1 (intermediateName taskId i) =
          some (encodeAll enc
            (intermediate.filter fun kv => (ihash kv.Key).tmod nReduce = i))) ∧
      (∀ name, (∀ i : Nat, (i : Int) < nReduce → name ≠ intermediateName taskId i) →
        fsRead fs1 name = fsRead fs name) := by
  obtain ⟨split, heq, hlen, hget, _⟩ := partition_spec nReduce h intermediate
  obtain ⟨h1, h2⟩ := fsRead_writeBuckets enc taskId split 0 fs
  refine ⟨writeBuckets enc taskId 0 split fs, ?_, fun i hi => ?_, fun name hname => ?_⟩
  · unfold doMapTask
    rw [hread]
    simp only []
    rw [heq]
  · have := h1 i _ (hget i (by omega))
    rw [Nat.zero_add] at this
    exact this
  · apply h2
    intro j hj
    rw [Nat.zero_add]
    exact hname j (by omega)

/-- The amended C14 on a file with the one word `x` and two buckets. -/
theorem doMapTask_writes_every_bucket_witness :
    (1 : Int) ≤ 2 ∧
      readInputs wcMap [("a.txt", "x")] [] ["a.txt"] = Except.ok [⟨"x", "1"⟩] ∧
      ∃ fs1, doMapTask tagEncode wcMap 0 ["a.txt"] 2 [("a.txt", "x")] = Except.ok fs1 ∧
        fsRead fs1 "mr-0-0" = some "" ∧ fsRead fs1 "mr-0-1" = some "kxv1\n" :=
  ⟨by decide, by rfl, by
    obtain ⟨fs1, heq, hfiles, _⟩ :=
      doMapTask_writes_every_bucket tagEncode wcMap 0 ["a.txt"] 2 [("a.txt", "x")]
        [⟨"x", "1"⟩] (by decide) (by rfl)
    exact ⟨fs1, heq, hfiles 0 (by decide), hfiles 1 (by decide)⟩⟩

theorem foldl_append_data (enc : KeyValue → String) (l : List KeyValue) (acc : String) :
    (l.foldl (fun content kv => content ++ enc kv) acc).data =
      acc.data ++ (l.map fun kv => (enc kv).data).flatten := by
  induction l generalizing acc with
  | nil => simp
  | cons kv rest ih =>
    simp only [List.foldl_cons, List.map_cons, List.flatten_cons]
    rw [ih, String.data_append, List.append_assoc]

theorem encodeAll_data (enc : KeyValue → String) (l : List KeyValue) :
    (encodeAll enc l).data = (l.map fun kv => (enc kv).data).flatten := by
  unfold encodeAll
  rw [foldl_append_data]
  rfl

theorem tagDecodeFrom_key (ks : List Char) :
    ∀ (key value tail : List Char),
      tagDecodeFrom key value ((ks.flatMap fun c => ['k', c]) ++ tail) =
        tagDecodeFrom (key ++ ks) value tail := by
  induction ks with
  | nil => intro key value tail; simp
  | cons c ks ih =>
    intro key value tail
    have h := ih (key ++ [c]) value tail
    simp only [List.flatMap_cons, List.cons_append, List.nil_append, List.append_assoc] at h ⊢
    rw [tagDecodeFrom, if_neg (by decide), if_pos rfl]
    exact h

theorem tagDecodeFrom_value (vs : List Char) :
    ∀ (key value tail : List Char),
      tagDecodeFrom key value ((vs.flatMap fun c => ['v', c]) ++ tail) =
        tagDecodeFrom key (value ++ vs) tail := by
  induction vs with
  | nil => intro key value tail; simp
  | cons c vs ih =>
    intro key value tail
    have h := ih key (value ++ [c]) tail
    simp only [List.flatMap_cons, List.cons_append, List.nil_append, List.append_assoc] at h ⊢
    rw [tagDecodeFrom, if_neg (by decide), if_neg (by decide), if_pos rfl]
    exact h

theorem tagDecodeFrom_newline (key value tail : List Char) :
    tagDecodeFrom key value ('\n' :: tail) =
      { Key := key.asString, Value := value.asString } :: tagDecodeFrom [] [] tail := by
  cases tail with
  | nil => simp [tagDecodeFrom]
  | cons c rest => simp [tagDecodeFrom]

theorem tagDecodeFrom_record (kv : KeyValue) (tail : List Char) :
    tagDecodeFrom [] [] ((tagEncode kv).data ++ tail) = kv :: tagDecodeFrom [] [] tail := by
  have h : (tagEncode kv).data =
      (kv.Key.data.flatMap fun c => ['k', c]) ++
        ((kv.Value.data.flatMap fun c => ['v', c]) ++ ['\n']) := by
    unfold tagEncode
    simp [List.asString]
  rw [h, List.append_assoc, tagDecodeFrom_key, List.append_assoc, tagDecodeFrom_value]
  simp only [List.nil_append, List.singleton_append]
  rw [tagDecodeFrom_newline]
  rfl

/-- The tagged codec decodes what it has encoded. -/
theorem tagDecode_encodeAll (l : List KeyValue) : tagDecode (encodeAll tagEncode l) = l := by
  unfold tagDecode
  rw [encodeAll_data]
  induction l with
  | nil => rfl
  | cons kv rest ih =>
    simp only [List.map_cons, List.flatten_cons]
    rw [tagDecodeFrom_record, ih]

/-- The lines of a word count: when `keys` lists the distinct keys of the
records in increasing order, the lines written are one line per key of `keys`
with the number of records of that key. -/
theorem wcReduce_lines (sortByKey : List KeyValue → List KeyValue)
    (intermediate : List KeyValue) (keys : List String)
    (hperm : (sortByKey intermediate).Perm intermediate)
    (hsorted : (sortByKey intermediate).Pairwise fun a b => Less b a = false)
    (hkeys : keys.Pairwise fun a b => a.data < b.data)
    (hmem : ∀ k, k ∈ keys ↔ k ∈ intermediate.map KeyValue.Key) :
    (doReduceTaskFrom sortByKey wcReduce intermediate).map ReduceCall.line =
      keys.map fun k =>
        k ++ " " ++ toString (intermediate.filter fun kv => kv.Key = k).length ++ "\n" := by
  have hs : (sortByKey intermediate).Pairwise fun a b => a.Key ≤ b.Key :=
    hsorted.imp fun {a b} h => (less_eq_false_iff a b).1 h
  obtain ⟨hnd, hmem1, hval⟩ :=
    reduceLoop_spec wcReduce (sortByKey intermediate).length (sortByKey intermediate)
      (Nat.le_refl _) hs
  have hsub := reduceLoop_keys_sublist wcReduce (sortByKey intermediate).length
    (sortByKey intermediate)
  have hle : ((sortByKey intermediate).map KeyValue.Key).Pairwise fun a b => a ≤ b :=
    List.pairwise_map.2 hs
  have hlt1 : ((doReduceTaskFrom sortByKey wcReduce intermediate).map ReduceCall.key).Pairwise
      fun a b => a < b :=
    ((hle.sublist hsub).and hnd).imp fun {a b} hab => lt_of_le_of_ne hab.1 hab.2
  have hlt2 : keys.Pairwise fun a b => a < b :=
    hkeys.imp fun {a b} hab => String.lt_iff_toList_lt.2 hab
  have hnd2 : keys.Nodup := hlt2.imp fun {a b} hab => ne_of_lt hab
  have hp : ((doReduceTaskFrom sortByKey wcReduce intermediate).map ReduceCall.key).Perm keys := by
    refine (List.perm_ext_iff_of_nodup hnd hnd2).2 fun k => ?_
    rw [hmem k]
    exact (hmem1 k).trans (hperm.map KeyValue.Key).mem_iff
  have hkeq : (doReduceTaskFrom sortByKey wcReduce intermediate).map ReduceCall.key = keys :=
    List.eq_of_perm_of_sorted hp hlt1 hlt2
  rw [← hkeq, List.map_map]
  refine List.map_congr_left fun c hc => ?_
  obtain ⟨hv, hline⟩ := hval c hc
  have hlen : c.values.length = (intermediate.filter fun kv => kv.Key = c.key).length := by
    rw [hv]
    have := ((hperm.filter fun kv => decide (kv.Key = c.key)).map fun kv => kv.Value).length_eq
    simpa [valuesOf] using this
  rw [hline]
  simp only [Function.comp, wcReduce, hlen]

/-- C15. End-to-end scenario: with a.txt = "x y x", b.txt = "y z", nReduce = 2,
the word-count map and reduce functions, every codec that decodes what it has
encoded and every sort that meets the contract of `sort.Sort`, the Map tasks 0
and 1 followed by the Reduce tasks 0 and 1 all succeed and leave the output
file mr-out-0 with the one line "y 2" and the output file mr-out-1 with the
lines "x 2" and "z 1": the three keys appear with their counts, each in exactly
one file, in sorted order inside each file. -/
theorem end_to_end_word_count (enc : KeyValue → String) (dec : String → List KeyValue)
    (sortByKey : List KeyValue → List KeyValue)
    (hcodec : ∀ l, dec (encodeAll enc l) = l)
    (hperm : ∀ l, (sortByKey l).Perm l)
    (hsorted : ∀ l, (sortByKey l).Pairwise fun a b => Less b a = false) :
    ∃ fs1 fs2 fs3 fs4,
      doMapTask enc wcMap 0 ["a.txt"] 2 wcInputs = Except.ok fs1 ∧
      doMapTask enc wcMap 1 ["b.txt"] 2 fs1 = Except.ok fs2 ∧
      doReduceTask dec sortByKey wcReduce 0 2 fs2 = Except.ok fs3 ∧
      doReduceTask dec sortByKey wcReduce 1 2 fs3 = Except.ok fs4 ∧
      fsRead fs4 "mr-out-0" = some "y 2\n" ∧
      fsRead fs4 "mr-out-1" = some "x 2\nz 1\n" := by
  have hl0 : (doReduceTaskFrom sortByKey wcReduce [⟨"y", "1"⟩, ⟨"y", "1"⟩]).map
      ReduceCall.line = ["y 2\n"] := by
    rw [wcReduce_lines sortByKey _ ["y"] (hperm _) (hsorted _) (by decide) (by simp)]
    decide
  have hl1 : (doReduceTaskFrom sortByKey wcReduce
      [⟨"x", "1"⟩, ⟨"x", "1"⟩, ⟨"z", "1"⟩]).map ReduceCall.line = ["x 2\n", "z 1\n"] := by
    rw [wcReduce_lines sortByKey _ ["x", "z"] (hperm _) (hsorted _) (by decide)
      (by simp)]
    decide
  have hr0 : readIntermediate dec 0
      [("a.txt", "x y x"), ("b.txt", "y z"),
       ("mr-0-0", encodeAll enc [⟨"y", "1"⟩]),
       ("mr-0-1", encodeAll enc [⟨"x", "1"⟩, ⟨"x", "1"⟩]),
       ("mr-1-0", encodeAll enc [⟨"y", "1"⟩]),
       ("mr-1-1", encodeAll enc [⟨"z", "1"⟩])] [] 0 (Int.toNat 2) =
      Except.ok ([] ++ dec (encodeAll enc [⟨"y", "1"⟩]) ++
        dec (encodeAll enc [⟨"y", "1"⟩])) := by rfl
  have hr1 : readIntermediate dec 1
      [("a.txt", "x y x"), ("b.txt", "y z"),
       ("mr-0-0", encodeAll enc [⟨"y", "1"⟩]),
       ("mr-0-1", encodeAll enc [⟨"x", "1"⟩, ⟨"x", "1"⟩]),
       ("mr-1-0", encodeAll enc [⟨"y", "1"⟩]),
       ("mr-1-1", encodeAll enc [⟨"z", "1"⟩]),
       ("mr-out-0", "y 2\n")] [] 0 (Int.toNat 2) =
      Except.ok ([] ++ dec (encodeAll enc [⟨"x", "1"⟩, ⟨"x", "1"⟩]) ++
        dec (encodeAll enc [⟨"z", "1"⟩])) := by rfl
  simp only [hcodec] at hr0 hr1
  refine ⟨[("a.txt", "x y x"), ("b.txt", "y z"),
       ("mr-0-0", encodeAll enc [⟨"y", "1"⟩]),
       ("mr-0-1", encodeAll enc [⟨"x", "1"⟩, ⟨"x", "1"⟩])],
    [("a.txt", "x y x"), ("b.txt", "y z"),
       ("mr-0-0", encodeAll enc [⟨"y", "1"⟩]),
       ("mr-0-1", encodeAll enc [⟨"x", "1"⟩, ⟨"x", "1"⟩]),
       ("mr-1-0", encodeAll enc [⟨"y", "1"⟩]),
       ("mr-1-1", encodeAll enc [⟨"z", "1"⟩])],
    [("a.txt", "x y x"), ("b.txt", "y z"),
       ("mr-0-0", encodeAll enc [⟨"y", "1"⟩]),
       ("mr-0-1", encodeAll enc [⟨"x", "1"⟩, ⟨"x", "1"⟩]),
       ("mr-1-0", encodeAll enc [⟨"y", "1"⟩]),
       ("mr-1-1", encodeAll enc [⟨"z", "1"⟩]),
       ("mr-out-0", "y 2\n")],
    [("a.txt", "x y x"), ("b.txt", "y z"),
       ("mr-0-0", encodeAll enc [⟨"y", "1"⟩]),
       ("mr-0-1", encodeAll enc [⟨"x", "1"⟩, ⟨"x", "1"⟩]),
       ("mr-1-0", encodeAll enc [⟨"y", "1"⟩]),
       ("mr-1-1", encodeAll enc [⟨"z", "1"⟩]),
       ("mr-out-0", "y 2\n"), ("mr-out-1", "x 2\nz 1\n")],
    by rfl, by rfl, ?_, ?_, by rfl, by rfl⟩
  · unfold doReduceTask
    rw [hr0]
    simp only [List.nil_append, List.singleton_append]
    rw [hl0]
    rfl
  · unfold doReduceTask
    rw [hr1]
    simp only [List.nil_append, List.cons_append, List.singleton_append]
    rw [hl1]
    rfl

/-- C15 with the tagged codec and the insertion sort. -/
theorem end_to_end_word_count_witness :
    (∀ l, tagDecode (encodeAll tagEncode l) = l) ∧
      (∀ l, (insertionSortByKey l).Perm l) ∧
      (∀ l, (insertionSortByKey l).Pairwise fun a b => Less b a = false) ∧
      ∃ fs1 fs2 fs3 fs4,
        doMapTask tagEncode wcMap 0 ["a.txt"] 2 wcInputs = Except.ok fs1 ∧
        doMapTask tagEncode wcMap 1 ["b.txt"] 2 fs1 = Except.ok fs2 ∧
        doReduceTask tagDecode insertionSortByKey wcReduce 0 2 fs2 = Except.ok fs3 ∧
        doReduceTask tagDecode insertionSortByKey wcReduce 1 2 fs3 = Except.ok fs4 ∧
        fsRead fs4 "mr-out-0" = some "y 2\n" ∧
        fsRead fs4 "mr-out-1" = some "x 2\nz 1\n" :=
  ⟨tagDecode_encodeAll, insertionSortByKey_perm, insertionSortByKey_sorted,
    end_to_end_word_count tagEncode tagDecode insertionSortByKey tagDecode_encodeAll
      insertionSortByKey_perm insertionSortByKey_sorted⟩

end MR

/-! ## Lemmas and theorems: the key-value server -/

namespace KVSrv

theorem append_unseen (kv : KVServer) (args : PutAppendArgs)
    (h : kv.history args.Id = none) :
    Append kv args =
      ({ store := fun k => if k = args.Key then kv.store args.Key ++ args.Value
                           else kv.store k
         history := fun id => if id = args.Id then some ((kv.store args.Key).length : Int)
                              else kv.history id },
        some (kv.store args.Key)) := by
  unfold Append
  rw [h]

theorem append_seen (kv : KVServer) (args : PutAppendArgs) (n : Int)
    (h : kv.history args.Id = some n) :
    Append kv args = (kv, sliceTo (kv.store args.Key) n) := by
  unfold Append
  rw [h]

/-- C16. At-most-once Append: in every state reachable from `StartKVServer`, an
Append whose Id is not in the history returns the old value, appends
`args.Value` to `store[args.Key]`, leaves every other key as it was and records
the Id with the old length; an Append whose Id is in the history leaves the
server, store and history, unchanged; so after the first Append any number of
repetitions of it leaves the value appended exactly once. -/
theorem append_at_most_once (ops : List Call) (args : PutAppendArgs) :
    ((serveAll StartKVServer ops).history args.Id = none →
        (Append (serveAll StartKVServer ops) args).2 =
          some ((serveAll StartKVServer ops).store args.Key) ∧
        (Append (serveAll StartKVServer ops) args).1.store args.Key =
          (serveAll StartKVServer ops).store args.Key ++ args.Value ∧
        (∀ k, k ≠ args.Key →
          (Append (serveAll StartKVServer ops) args).1.store k = (serveAll StartKVServer ops).store k) ∧
        (Append (serveAll StartKVServer ops) args).1.history args.Id =
          some (((serveAll StartKVServer ops).store args.Key).length : Int) ∧
        (∀ id, id ≠ args.Id →
          (Append (serveAll StartKVServer ops) args).1.history id =
            (serveAll StartKVServer ops).history id)) ∧
      ((serveAll StartKVServer ops).history args.Id ≠ none →
        (Append (serveAll StartKVServer ops) args).1 = serveAll StartKVServer ops) ∧
      (∀ n : Nat,
        ((fun s => (Append s args).1)^[n] (Append (serveAll StartKVServer ops) args).1) =
          (Append (serveAll StartKVServer ops) args).1) := by
  have hseen : ∀ s : KVServer, s.history args.Id ≠ none → (Append s args).1 = s := by
    intro s hs
    cases hh : s.history args.Id with
    | none => exact absurd hh hs
    | some n => rw [append_seen s args n hh]
  have hrec : (Append (serveAll StartKVServer ops) args).1.history args.Id ≠ none := by
    cases hh : (serveAll StartKVServer ops).history args.Id with
    | none =>
      rw [append_unseen _ args hh]
      simp
    | some n =>
      rw [append_seen _ args n hh, hh]
      simp
  refine ⟨fun h => ?_, hseen _, fun n => ?_⟩
  · rw [append_unseen _ args h]
    refine ⟨rfl, by simp, fun k hk => by simp [hk], by simp, fun id hid => by simp [hid]⟩
  · induction n with
    | zero => rfl
    | succ n ih =>
      rw [Function.iterate_succ_apply', ih]
      exact hseen _ hrec

/-- C16 on the fresh server: the Append of `ab` to the key `k` with Id 1,
repeated three more times, leaves `ab` under `k`. -/
theorem append_at_most_once_witness :
    (serveAll StartKVServer []).history 1 = none ∧
      (Append (serveAll StartKVServer []) ⟨[107], [97, 98], 1⟩).1.store [107] = [97, 98] ∧
      ((fun s => (Append s ⟨[107], [97, 98], 1⟩).1)^[3]
        (Append (serveAll StartKVServer []) ⟨[107], [97, 98], 1⟩).1).store [107] = [97, 98] :=
  ⟨by decide,
    ((append_at_most_once [] ⟨[107], [97, 98], 1⟩).1 (by decide)).2.1,
    by rw [(append_at_most_once [] ⟨[107], [97, 98], 1⟩).2.2 3]; decide⟩

/-- C19, the code at the failing input: after Append(`k`, `ab`, Id 1),
Append(`k`, `c`, Id 2), which returns `ab`, and Put(`k`, the empty string), the
history holds the length 2 for the Id 2 while `store[k]` has length 0, and the
repeated Append(`k`, `c`, Id 2) takes the slice `store[k][:2]` and panics. -/
theorem append_retry_after_put_panics :
    (Append (serveAll StartKVServer [Call.append ⟨[107], [97, 98], 1⟩]) ⟨[107], [99], 2⟩).2 =
        some [97, 98] ∧
      (serveAll StartKVServer [Call.append ⟨[107], [97, 98], 1⟩, Call.append ⟨[107], [99], 2⟩,
        Call.put ⟨[107], [], 3⟩]).history 2 = some 2 ∧
      (serveAll StartKVServer [Call.append ⟨[107], [97, 98], 1⟩, Call.append ⟨[107], [99], 2⟩,
        Call.put ⟨[107], [], 3⟩]).store [107] = [] ∧
      (Append (serveAll StartKVServer [Call.append ⟨[107], [97, 98], 1⟩,
        Call.append ⟨[107], [99], 2⟩, Call.put ⟨[107], [], 3⟩]) ⟨[107], [99], 2⟩).2 = none := by
  decide

theorem replied_after_append (kv : KVServer) (args : PutAppendArgs) (v : GoString)
    (h : (Append kv args).2 = some v) : Replied args.Id args.Key v (Append kv args).1 := by
  cases hh : kv.history args.Id with
  | none =>
    rw [append_unseen kv args hh] at h ⊢
    have hv : kv.store args.Key = v := Option.some.inj h
    refine ⟨by simp [hv], args.Value, by simp [hv]⟩
  | some n =>
    rw [append_seen kv args n hh] at h ⊢
    unfold sliceTo at h
    split_ifs at h with hn
    have hv : (kv.store args.Key).take n.toNat = v := Option.some.inj h
    refine ⟨?_, (kv.store args.Key).drop n.toNat, ?_⟩
    · show kv.history args.Id = some (v.length : Int)
      rw [hh, ← hv, List.length_take]
      congr 1
      omega
    · show kv.store args.Key = v ++ _
      rw [← hv, List.take_append_drop]

theorem replied_serve (I : Int) (K v : GoString) (s : KVServer) (op : Call)
    (hput : ∀ a, op = Call.put a → a.Key ≠ K) (h : Replied I K v s) :
    Replied I K v (serve s op) := by
  obtain ⟨hh, suffix, hs⟩ := h
  cases op with
  | get a => exact ⟨hh, suffix, hs⟩
  | put a =>
    have hne : ¬ K = a.Key := fun hk => hput a rfl hk.symm
    exact ⟨hh, suffix, by simp [serve, Put, hne, hs]⟩
  | append a =>
    show Replied I K v (Append s a).1
    cases ha : s.history a.Id with
    | some n =>
      rw [append_seen s a n ha]
      exact ⟨hh, suffix, hs⟩
    | none =>
      rw [append_unseen s a ha]
      have hid : ¬ I = a.Id := by
        intro hI
        rw [hI, ha] at hh
        cases hh
      refine ⟨by simp [hid, hh], ?_⟩
      by_cases hk : K = a.Key
      · refine ⟨suffix ++ a.Value, ?_⟩
        simp only [hk, if_true]
        rw [← hk, hs, List.append_assoc]
      · exact ⟨suffix, by simp [hk, hs]⟩

theorem replied_serveAll (I : Int) (K v : GoString) (ops : List Call) :
    ∀ s : KVServer, (∀ a, Call.put a ∈ ops → a.Key ≠ K) → Replied I K v s →
      Replied I K v (serveAll s ops) := by
  induction ops with
  | nil => intro s _ h; exact h
  | cons op rest ih =>
    intro s hput h
    exact ih (serve s op) (fun a ha => hput a (List.mem_cons_of_mem _ ha))
      (replied_serve I K v s op (fun a ha => hput a (ha ▸ List.mem_cons_self _ _)) h)

/-- C20. Retried Append returns the original reply: if an Append with Id I and
key K returned the value v, then after any sequence of further Get calls,
Append calls to any keys with any ids, and Put calls to keys other than K, an
Append with the same Id and the same key returns exactly v. -/
theorem retried_append_returns_original (kv : KVServer) (args : PutAppendArgs)
    (v : GoString) (ops : List Call) (value1 : GoString)
    (hfirst : (Append kv args).2 = some v)
    (hput : ∀ a, Call.put a ∈ ops → a.Key ≠ args.Key) :
    (Append (serveAll (Append kv args).1 ops)
      { Key := args.Key, Value := value1, Id := args.Id }).2 = some v := by
  obtain ⟨hh, suffix, hs⟩ :=
    replied_serveAll args.Id args.Key v ops _ hput (replied_after_append kv args v hfirst)
  rw [append_seen _ { Key := args.Key, Value := value1, Id := args.Id } _ hh]
  show sliceTo ((serveAll (Append kv args).1 ops).store args.Key) (v.length : Int) = some v
  rw [hs]
  unfold sliceTo
  rw [if_pos ⟨by omega, by simp⟩]
  simp

/-- C20 after Append(`k`, `ab`, Id 1): Append(`k`, `c`, Id 2) returns `ab`;
after an Append of `d` to `k` with Id 3, a Put to the key `j` and a Get, the
repeated Append with Id 2 returns `ab` again. -/
theorem retried_append_returns_original_witness :
    (Append (serveAll StartKVServer [Call.append ⟨[107], [97, 98], 1⟩]) ⟨[107], [99], 2⟩).2 =
        some [97, 98] ∧
      (∀ a, Call.put a ∈ [Call.append ⟨[107], [100], 3⟩, Call.put ⟨[106], [100], 4⟩,
        Call.get ⟨[107]⟩] → a.Key ≠ [107]) ∧
      (Append (serveAll (Append (serveAll StartKVServer [Call.append ⟨[107], [97, 98], 1⟩])
          ⟨[107], [99], 2⟩).1
        [Call.append ⟨[107], [100], 3⟩, Call.put ⟨[106], [100], 4⟩, Call.get ⟨[107]⟩])
        ⟨[107], [99], 2⟩).2 = some [97, 98] :=
  ⟨by decide, by simp,
    retried_append_returns_original (serveAll StartKVServer [Call.append ⟨[107], [97, 98], 1⟩])
      ⟨[107], [99], 2⟩ [97, 98]
      [Call.append ⟨[107], [100], 3⟩, Call.put ⟨[106], [100], 4⟩, Call.get ⟨[107]⟩] [99]
      (by decide) (by simp)⟩

end KVSrv
